import Mathlib

set_option maxHeartbeats 1000000

/- Shallow embedding of `src/main.rs` of the five-five crate.
   Machine integers (u8, u32, usize) are embedded as `Nat`, with wraparound
   written explicitly where the release-mode Rust arithmetic wraps:
   `% 256` for the u8 subtraction `letter - b'a'` and `% 32` for u32 shift
   amounts.  `debug_assert!` has no effect in release builds and is not part
   of the embedding.  File/console I/O is out of scope: the output sink is
   embedded as the list of emitted solution lines, each line as the 5-tuple
   of words written on it. -/

/-- `struct Word { bitword: u32, bytes: [u8; 5] }`. -/
structure Word where
  bitword : Nat
  bytes : List Nat
deriving DecidableEq

/-- `impl Default for Word` (derived `Clone, Default`): zero mask, zero bytes. -/
def Word.dfl : Word := ⟨0, [0, 0, 0, 0, 0]⟩

/-- The u8 offset `letter - b'a'`, wrapping as u8 subtraction does in release. -/
def letterOffset (letter : Nat) : Nat := (letter + 256 - 97) % 256

/-- `Word::new`: the line must convert to `[u8; 5]` (exactly 5 bytes); scan the
    bytes accumulating a u32 mask of (wrapped) letter offsets and the number of
    distinct bits set; accept iff that number is 5.  Shift amounts reduce `% 32`
    (u32 shifts, release semantics). -/
def Word.new (bytes : List Nat) : Option Word :=
  if bytes.length = 5 then
    let r := bytes.foldl (fun (p : Nat × Nat) letter =>
      let b := 1 <<< (letterOffset letter % 32)
      if p.1 &&& b = 0 then (p.1 ||| b, p.2 + 1) else p) (0, 0)
    if r.2 = 5 then some ⟨r.1, bytes⟩ else none
  else none

/-- `Word::transform`: recompute the mask through the rank table `t`, tracking
    the maximal rank `msl`; return `(msl, remapped word)`.  An out-of-range
    `t[..]` read panics in Rust; the embedding reads 0 there (the theorems only
    use in-range, lowercase bytes). -/
def Word.transform (w : Word) (t : List Nat) : Nat × Word :=
  let p := w.bytes.foldl (fun (p : Nat × Nat) letter =>
    let offset := t.getD (letterOffset letter) 0
    (max p.1 offset, p.2 ||| (1 <<< (offset % 32)))) (0, 0)
  (p.1, { w with bitword := p.2 })

/-- `words.par_sort_unstable_by_key(|w| w.bitword)`, embedded as a
    deterministic (stable) merge sort on the same key. -/
def sortByMask (ws : List Word) : List Word :=
  ws.mergeSort (fun a b => decide (a.bitword ≤ b.bitword))

/-- `Vec::dedup_by_key(|w| w.bitword)`, helper: scan with the last kept
    element `a`, dropping successors with the same key. -/
def dedup_from (a : Word) : List Word → List Word
  | [] => [a]
  | b :: rest =>
    if a.bitword = b.bitword then dedup_from a rest else a :: dedup_from b rest

/-- `Vec::dedup_by_key(|w| w.bitword)`: remove all but the first of
    consecutive elements with equal key. -/
def dedup_by_key : List Word → List Word
  | [] => []
  | a :: rest => dedup_from a rest

/-- The sorted-and-deduplicated word list built at the start of `words_`. -/
def dedupedOf (ws : List Word) : List Word := dedup_by_key (sortByMask ws)

/-- The letter-frequency pass of `words_`: `freqs[(b - b'a') as usize] += 1`
    for every byte of every deduplicated word.  An out-of-range index
    (non-lowercase byte) panics in Rust; `List.set` is the identity there. -/
def freqs (ws : List Word) : List Nat :=
  ws.foldl (fun f w =>
    w.bytes.foldl (fun f b =>
      f.set (letterOffset b) (f.getD (letterOffset b) 0 + 1)) f)
    (List.replicate 26 0)

/-- The rarity transform of `words_`: enumerate the 26 frequencies, sort
    ascending by frequency, reverse (most frequent first), keep the letter
    indices, enumerate again as `(rank, letter)` and sort by letter, so that
    position `letter` of the result holds its rank. -/
def transformOf (ws : List Word) : List Nat :=
  let fs := freqs ws
  let byFreq := fs.enum.mergeSort (fun a b => decide (a.2 ≤ b.2))
  let letters := byFreq.reverse.map Prod.fst
  (letters.enum.mergeSort (fun a b => decide (a.2 ≤ b.2))).map Prod.fst

/-- The full contract of `sorted_unstable_by_key(|p| p.2)` on pair lists: the
    output is some permutation of the input that is sorted by the key.  The
    relative order of equal-key elements is left unspecified by the sort, so
    any `out` satisfying this predicate is an admissible result.  The
    executable `transformOf` above fixes one admissible resolution (a stable
    merge sort); the rarity-ranking theorems quantify over all of them. -/
def SortedByKey (input out : List (Nat × Nat)) : Prop :=
  out.Perm input ∧ out.Pairwise (fun a b => a.2 ≤ b.2)

/-- `words_`: sort, dedup, build the rarity transform, then push every
    remapped word into `indexed_words[msl]`.  `msl ≥ 26` would panic in Rust
    (array index); the embedding drops such a word (msl is provably < 26).
    The fixed array `[Vec<Word>; 26]` is embedded as a function from bucket
    index to bucket, empty above 25. -/
def words_ (input : List Word) : Nat → List Word :=
  let ws := dedupedOf input
  let t := transformOf ws
  ws.foldl (fun bk w =>
    let p := w.transform t
    if p.1 < 26 then Function.update bk p.1 (bk p.1 ++ [p.2]) else bk)
    (fun _ => [])

/-- `load_words`: split the file contents on `b'\n'` and keep the lines
    accepted by `Word::new`.  No carriage-return trimming happens anywhere. -/
def load_words (contents : List Nat) : List Word :=
  (contents.splitOn 10).filterMap Word.new

/-- `next_free_letter`: `(0..26).rev().filter(|n| filter & (1 << n) == 0).next()`. -/
def next_free_letter (filter : Nat) : Option Nat :=
  ((List.range 26).reverse.filter (fun n => filter &&& (1 <<< n) == 0)).head?

/-- `solve14`, the recursive cover search.  Every Rust call site keeps
    `i ≤ 4`, and each recursive call strictly decreases
    `2*(4-i) + (if skipped then 0 else 1)` (theorem `searchStep_decreases`),
    so the recursion is bounded; the embedding makes the bound explicit with
    a fuel argument that is never exhausted when `fuel ≥ 6 - i`
    (`solve` passes 10, see `solve14_fuel_irrelevant`). -/
def solve14 (fuel : Nat) (words : Nat → List Word) (skipped : Bool)
    (filter : Nat) (solution : Nat → Word) (i : Nat) : List (List Word) :=
  match fuel with
  | 0 => []
  | fuel + 1 =>
    match next_free_letter filter with
    | none => []
    | some letter =>
      (if i = 4 then
        (words letter).filterMap (fun word =>
          if word.bitword &&& filter = 0 then
            some [solution 0, solution 1, solution 2, solution 3, word]
          else none)
      else
        (words letter).flatMap (fun word =>
          if word.bitword &&& filter = 0 then
            solve14 fuel words skipped (filter ||| word.bitword)
              (Function.update solution i word) (i + 1)
          else []))
      ++ (if !skipped then
            solve14 fuel words true (filter ||| (1 <<< letter)) solution i
          else [])

/-- `solve`: the two hand-unrolled entry modes.  The `par_iter` workers write
    to a mutex-guarded file in nondeterministic order; the embedding collects
    the emitted lines in iteration order (every claim below is
    order-independent). -/
def solve (words : Nat → List Word) : List (List Word) :=
  ((words 25).flatMap (fun word =>
    solve14 10 words false word.bitword
      (Function.update (fun _ => Word.dfl) 0 word) 1))
  ++ ((words 24).flatMap (fun word =>
    solve14 10 words true (word.bitword ||| (1 <<< 25))
      (Function.update (fun _ => Word.dfl) 0 word) 1))

/- ------------------------------------------------------------------ -/
/- Derived notions used to state and prove the specification claims.  -/
/- ------------------------------------------------------------------ -/

/-- Number of set bits among positions `0..26`. -/
def pc (n : Nat) : Nat := (List.range 26).countP (fun b => n.testBit b)

/-- Highest set bit among positions `0..26` (0 if there is none). -/
def hb (n : Nat) : Nat :=
  (List.range 26).foldl (fun m b => if n.testBit b then b else m) 0

/-- Union of the masks of a list of words. -/
def unionMasks (c : List Word) : Nat := c.foldr (fun w m => w.bitword ||| m) 0

/-- The first `i` slots of the solution buffer. -/
def prefixOf (solution : Nat → Word) (i : Nat) : List Word :=
  (List.range i).map solution

/-- Well-formedness of a word index: every word of a bucket `l < 26` has
    exactly 5 set bits, all in positions `0..l` with bit `l` set, and every
    bucket holds pairwise distinct masks. -/
def WFindex (words : Nat → List Word) : Prop :=
  ∀ l, l < 26 →
    (∀ w ∈ words l,
      pc w.bitword = 5 ∧ w.bitword.testBit l = true ∧ w.bitword < 2 ^ (l + 1)) ∧
    (words l).Pairwise (fun a b => a.bitword ≠ b.bitword)

/-- Letters in `0..26` above the top letter of the last word of `c` that are
    covered neither by `filter` nor by `c`: the search path emitting `c` must
    consume each of them with one skip branch. -/
def freeCount (filter : Nat) (c : List Word) : Nat :=
  (List.range 26).countP (fun b =>
    decide (hb (c.getLastD Word.dfl).bitword < b) &&
    !(filter ||| unionMasks c).testBit b)

/-- The completions emitted by `solve14` from a `(skipped, filter)` state:
    indexed words, pairwise disjoint and disjoint from `filter`, top letters
    strictly decreasing, and needing at most `1 - skipped` skip branches. -/
def CompOK (words : Nat → List Word) (skipped : Bool) (filter : Nat)
    (c : List Word) : Prop :=
  (∀ w ∈ c, w ∈ words (hb w.bitword) ∧ w.bitword &&& filter = 0) ∧
  c.Pairwise (fun a b => a.bitword &&& b.bitword = 0 ∧ hb b.bitword < hb a.bitword) ∧
  freeCount filter c ≤ (if skipped then 0 else 1)

/-- An ordered solution as the search delivers it: five indexed words,
    pairwise disjoint, jointly covering 25 of the 26 rank positions, ordered
    by strictly decreasing top letter. -/
def ValidTuple (words : Nat → List Word) (T : List Word) : Prop :=
  T.length = 5 ∧ (∀ w ∈ T, w ∈ words (hb w.bitword)) ∧
  T.Pairwise (fun a b => a.bitword &&& b.bitword = 0 ∧ hb b.bitword < hb a.bitword) ∧
  pc (unionMasks T) = 25

/-- The state of one `solve14` activation (the solution buffer and the output
    handle play no role in the state-level claims). -/
structure SState where
  skipped : Bool
  filter : Nat
  i : Nat
deriving DecidableEq

/-- One recursive call of `solve14` as written in the source: either the
    consume branch places a word of the current letter's bucket, or the skip
    branch commits the current letter as the missing one. -/
inductive SearchStep (words : Nat → List Word) : SState → SState → Prop
  | consume {s : SState} {l : Nat} {w : Word} :
      s.i ≠ 4 → next_free_letter s.filter = some l → w ∈ words l →
      w.bitword &&& s.filter = 0 →
      SearchStep words s ⟨s.skipped, s.filter ||| w.bitword, s.i + 1⟩
  | skip {s : SState} {l : Nat} :
      s.skipped = false → next_free_letter s.filter = some l →
      SearchStep words s ⟨true, s.filter ||| (1 <<< l), s.i⟩

/-- The two top-level entry modes of `solve`. -/
def EntryState (words : Nat → List Word) (s : SState) : Prop :=
  (∃ w ∈ words 25, s = ⟨false, w.bitword, 1⟩) ∨
  (∃ w ∈ words 24, s = ⟨true, w.bitword ||| (1 <<< 25), 1⟩)

/-- The `solve14` states reachable from `solve`. -/
def ReachableState (words : Nat → List Word) (s : SState) : Prop :=
  ∃ e, EntryState words e ∧ Relation.ReflTransGen (SearchStep words) e s

/-- The termination measure of the recursion. -/
def stepMeasure (s : SState) : Nat :=
  2 * (4 - s.i) + (if s.skipped then 0 else 1)

/-- Words as `load_words` produces them from all-lowercase input: exactly 5
    pairwise distinct ASCII lowercase bytes together with the matching
    raw-identity mask. -/
def rawMask (bytes : List Nat) : Nat :=
  bytes.foldl (fun m b => m ||| (1 <<< (letterOffset b % 32))) 0

/-- Well-formed parsed word (see `rawMask`). -/
def WFword (w : Word) : Prop :=
  w.bytes.length = 5 ∧ (∀ b ∈ w.bytes, 97 ≤ b ∧ b ≤ 122) ∧ w.bytes.Nodup ∧
  w.bitword = rawMask w.bytes

/- Concrete data used by witnesses and counterexamples. -/

/-- Example word with mask bits 21-25. -/
def ew1 : Word := ⟨2 ^ 25 + 2 ^ 24 + 2 ^ 23 + 2 ^ 22 + 2 ^ 21, [97, 98, 99, 100, 101]⟩
/-- Example word with mask bits 16-20. -/
def ew2 : Word := ⟨2 ^ 20 + 2 ^ 19 + 2 ^ 18 + 2 ^ 17 + 2 ^ 16, [102, 103, 104, 105, 106]⟩
/-- Example word with mask bits 11-15. -/
def ew3 : Word := ⟨2 ^ 15 + 2 ^ 14 + 2 ^ 13 + 2 ^ 12 + 2 ^ 11, [107, 108, 109, 110, 111]⟩
/-- Example word with mask bits 6-10. -/
def ew4 : Word := ⟨2 ^ 10 + 2 ^ 9 + 2 ^ 8 + 2 ^ 7 + 2 ^ 6, [112, 113, 114, 115, 116]⟩
/-- Example word with mask bits 1-5. -/
def ew5 : Word := ⟨2 ^ 5 + 2 ^ 4 + 2 ^ 3 + 2 ^ 2 + 2 ^ 1, [118, 119, 120, 121, 122]⟩

/-- A tiny well-formed index with exactly one 5-word cover. -/
def exWords : Nat → List Word := fun l =>
  if l = 25 then [ew1] else if l = 20 then [ew2] else if l = 15 then [ew3]
  else if l = 10 then [ew4] else if l = 5 then [ew5] else []

/-- Raw parsed word "abcde" as `Word::new` builds it (mask bits 0-4). -/
def rwa : Word := ⟨2 ^ 0 + 2 ^ 1 + 2 ^ 2 + 2 ^ 3 + 2 ^ 4, [97, 98, 99, 100, 101]⟩
/-- Raw parsed word "abced": an anagram of "abcde" with the same mask. -/
def rwa2 : Word := ⟨2 ^ 0 + 2 ^ 1 + 2 ^ 2 + 2 ^ 3 + 2 ^ 4, [97, 98, 99, 101, 100]⟩
/-- Raw parsed word "fghij" (mask bits 5-9). -/
def rwb : Word := ⟨2 ^ 5 + 2 ^ 6 + 2 ^ 7 + 2 ^ 8 + 2 ^ 9, [102, 103, 104, 105, 106]⟩

instance (words : Nat → List Word) (skipped : Bool) (filter : Nat)
    (c : List Word) : Decidable (CompOK words skipped filter c) :=
  inferInstanceAs (Decidable
    ((∀ w ∈ c, w ∈ words (hb w.bitword) ∧ w.bitword &&& filter = 0) ∧
     c.Pairwise (fun a b : Word => a.bitword &&& b.bitword = 0 ∧ hb b.bitword < hb a.bitword) ∧
     freeCount filter c ≤ (if skipped then 0 else 1)))

instance (words : Nat → List Word) (T : List Word) :
    Decidable (ValidTuple words T) :=
  inferInstanceAs (Decidable
    (T.length = 5 ∧ (∀ w ∈ T, w ∈ words (hb w.bitword)) ∧
     T.Pairwise (fun a b : Word => a.bitword &&& b.bitword = 0 ∧ hb b.bitword < hb a.bitword) ∧
     pc (unionMasks T) = 25))

instance (words : Nat → List Word) : Decidable (WFindex words) :=
  inferInstanceAs (Decidable (∀ l, l < 26 →
    (∀ w ∈ words l,
      pc w.bitword = 5 ∧ w.bitword.testBit l = true ∧ w.bitword < 2 ^ (l + 1)) ∧
    (words l).Pairwise (fun a b : Word => a.bitword ≠ b.bitword)))

instance (input out : List (Nat × Nat)) : Decidable (SortedByKey input out) :=
  inferInstanceAs (Decidable (out.Perm input ∧
    out.Pairwise (fun a b : Nat × Nat => a.2 ≤ b.2)))

instance (w : Word) : Decidable (WFword w) :=
  inferInstanceAs (Decidable
    (w.bytes.length = 5 ∧ (∀ b ∈ w.bytes, 97 ≤ b ∧ b ≤ 122) ∧ w.bytes.Nodup ∧
     w.bitword = rawMask w.bytes))

/- ------------------------------------------------------------------ -/
/- Bit-level helper lemmas.                                           -/
/- ------------------------------------------------------------------ -/

/-- Testing a single shifted bit through masking. -/
theorem land_shift_eq_zero_iff (f n : Nat) :
    f &&& (1 <<< n) = 0 ↔ f.testBit n = false := by
  rw [Nat.shiftLeft_eq, one_mul, Nat.and_two_pow]
  cases h : f.testBit n <;> simp

/-- Bitwise conjunction is zero iff no bit is shared. -/
theorem and_eq_zero_iff (a b : Nat) :
    a &&& b = 0 ↔ ∀ i, a.testBit i = false ∨ b.testBit i = false := by
  constructor
  · intro h i
    have h2 := congrArg (Nat.testBit · i) h
    simp only [Nat.testBit_and, Nat.zero_testBit] at h2
    rcases Bool.and_eq_false_iff.mp h2 with h' | h'
    · exact Or.inl h'
    · exact Or.inr h'
  · intro h
    apply Nat.eq_of_testBit_eq
    intro i
    simp only [Nat.testBit_and, Nat.zero_testBit]
    rcases h i with h' | h' <;> simp [h']

theorem testBit_false_of_and_eq_zero {a b i : Nat} (h : a &&& b = 0)
    (ha : a.testBit i = true) : b.testBit i = false := by
  rcases (and_eq_zero_iff a b).mp h i with h' | h'
  · rw [ha] at h'; cases h'
  · exact h'

/-- Bits above the width bound are clear. -/
theorem testBit_false_of_lt_pow {n l b : Nat} (h : n < 2 ^ (l + 1)) (hlb : l < b) :
    n.testBit b = false :=
  Nat.testBit_lt_two_pow (lt_of_lt_of_le h (Nat.pow_le_pow_right (by norm_num) hlb))

/-- Helper: head of the filtered reversed range searched by `next_free_letter`. -/
theorem head_filter_rev_range_eq_some_iff (p : Nat → Bool) (k l : Nat) :
    (((List.range k).reverse.filter p).head? = some l) ↔
      (l < k ∧ p l = true ∧ ∀ b, l < b → b < k → p b = false) := by
  induction k with
  | zero => simp
  | succ k ih =>
    rw [List.range_succ, List.reverse_append, List.reverse_singleton,
      List.singleton_append, List.filter_cons]
    by_cases hpk : p k = true
    · rw [if_pos hpk, List.head?_cons]
      constructor
      · intro h
        rw [Option.some_inj] at h
        subst h
        exact ⟨Nat.lt_succ_self _, hpk, fun b hb1 hb2 => absurd hb1 (by omega)⟩
      · rintro ⟨h1, h2, h3⟩
        have hlk : l = k := by
          by_contra hne
          have := h3 k (by omega) (Nat.lt_succ_self k)
          rw [hpk] at this; cases this
        rw [hlk]
    · rw [if_neg hpk, ih]
      have hpk' : p k = false := Bool.eq_false_iff.mpr hpk
      constructor
      · rintro ⟨h1, h2, h3⟩
        refine ⟨by omega, h2, fun b hb1 hb2 => ?_⟩
        rcases Nat.lt_succ_iff_lt_or_eq.mp hb2 with h | h
        · exact h3 b hb1 h
        · rw [h]; exact hpk'
      · rintro ⟨h1, h2, h3⟩
        have hlk : l < k := by
          rcases Nat.lt_succ_iff_lt_or_eq.mp h1 with h | h
          · exact h
          · rw [h] at h2; rw [hpk'] at h2; cases h2
        exact ⟨hlk, h2, fun b hb1 hb2 => h3 b hb1 (by omega)⟩

theorem head_filter_rev_range_eq_none_iff (p : Nat → Bool) (k : Nat) :
    (((List.range k).reverse.filter p).head? = none) ↔ ∀ b, b < k → p b = false := by
  rw [List.head?_eq_none_iff, List.filter_eq_nil_iff]
  constructor
  · intro h b hbk
    by_contra hc
    exact h b (by simp [List.mem_reverse, List.mem_range, hbk]) (by simpa using hc)
  · intro h b hbk
    simp only [List.mem_reverse, List.mem_range] at hbk
    simp [h b hbk]

/-- The boolean test inside `next_free_letter`, as a negated test bit. -/
theorem nfl_test_eq (f b : Nat) : (f &&& (1 <<< b) == 0) = !f.testBit b := by
  cases hfb : f.testBit b
  · simp [(land_shift_eq_zero_iff f b).mpr hfb]
  · have hne : ¬ (f &&& (1 <<< b) = 0) := fun h => by
      rw [(land_shift_eq_zero_iff f b).mp h] at hfb; cases hfb
    simp [hne]

theorem next_free_letter_eq_some_iff (f l : Nat) :
    next_free_letter f = some l ↔
      (l < 26 ∧ f.testBit l = false ∧ ∀ b, l < b → b < 26 → f.testBit b = true) := by
  unfold next_free_letter
  rw [head_filter_rev_range_eq_some_iff]
  constructor
  · rintro ⟨h1, h2, h3⟩
    rw [nfl_test_eq] at h2
    refine ⟨h1, by simpa using h2, fun b hb1 hb2 => ?_⟩
    have := h3 b hb1 hb2
    rw [nfl_test_eq] at this
    simpa using this
  · rintro ⟨h1, h2, h3⟩
    refine ⟨h1, by rw [nfl_test_eq]; simp [h2], fun b hb1 hb2 => ?_⟩
    rw [nfl_test_eq]
    simp [h3 b hb1 hb2]

theorem next_free_letter_eq_none_iff (f : Nat) :
    next_free_letter f = none ↔ ∀ b, b < 26 → f.testBit b = true := by
  unfold next_free_letter
  rw [head_filter_rev_range_eq_none_iff]
  constructor
  · intro h b hbk
    have := h b hbk
    rw [nfl_test_eq] at this
    simpa using this
  · intro h b hbk
    rw [nfl_test_eq]
    simp [h b hbk]

theorem next_free_letter_lt {f l : Nat} (h : next_free_letter f = some l) : l < 26 :=
  ((next_free_letter_eq_some_iff f l).mp h).1

theorem next_free_letter_free {f l : Nat} (h : next_free_letter f = some l) :
    f.testBit l = false :=
  ((next_free_letter_eq_some_iff f l).mp h).2.1

theorem next_free_letter_above {f l : Nat} (h : next_free_letter f = some l) :
    ∀ b, l < b → b < 26 → f.testBit b = true :=
  ((next_free_letter_eq_some_iff f l).mp h).2.2

/- ------------------------------------------------------------------ -/
/- Popcount and highest-bit lemmas.                                   -/
/- ------------------------------------------------------------------ -/

theorem countP_or_split {α : Type} (p q : α → Bool) :
    ∀ l : List α, (∀ a ∈ l, ¬(p a = true ∧ q a = true)) →
      l.countP (fun a => p a || q a) = l.countP p + l.countP q := by
  intro l
  induction l with
  | nil => intro _; simp
  | cons x xs ih =>
    intro h
    have hx := h x (by simp)
    simp only [List.countP_cons]
    rw [ih (fun a ha => h a (by simp [ha]))]
    cases hp : p x <;> cases hq : q x <;> simp [hp, hq] at hx ⊢ <;> omega

theorem pc_le_26 (n : Nat) : pc n ≤ 26 := by
  have := List.countP_le_length (l := List.range 26) (p := fun b => n.testBit b)
  simpa [pc] using this

theorem pc_or_of_disjoint {a b : Nat} (h : a &&& b = 0) :
    pc (a ||| b) = pc a + pc b := by
  unfold pc
  have : ∀ x ∈ List.range 26, ¬(a.testBit x = true ∧ b.testBit x = true) := by
    intro x _ ⟨hx1, hx2⟩
    rw [testBit_false_of_and_eq_zero h hx1] at hx2
    cases hx2
  rw [← countP_or_split _ _ _ this]
  apply List.countP_congr
  intro x _
  simp [Nat.testBit_or]

theorem countP_or_le {α : Type} (p q : α → Bool) (l : List α) :
    l.countP (fun a => p a || q a) ≤ l.countP p + l.countP q := by
  induction l with
  | nil => simp
  | cons x xs ih =>
    simp only [List.countP_cons]
    cases hp : p x <;> cases hq : q x <;> simp [hp, hq] <;> omega

theorem pc_or_le (a b : Nat) : pc (a ||| b) ≤ pc a + pc b := by
  unfold pc
  calc (List.range 26).countP (fun x => (a ||| b).testBit x)
      = (List.range 26).countP (fun x => a.testBit x || b.testBit x) := by
        apply List.countP_congr; intro x _; simp [Nat.testBit_or]
    _ ≤ _ := countP_or_le _ _ _

theorem pc_two_pow {l : Nat} (h : l < 26) : pc (2 ^ l) = 1 := by
  unfold pc
  calc (List.range 26).countP (fun b => (2 ^ l).testBit b)
      = (List.range 26).countP (fun b => b == l) := by
        apply List.countP_congr
        intro x _
        rw [Nat.testBit_two_pow]
        by_cases hx : x = l
        · subst hx; simp
        · simp [hx, Ne.symm hx]
    _ = List.count l (List.range 26) := rfl
    _ = 1 := List.count_eq_one_of_mem (List.nodup_range 26) (List.mem_range.mpr h)

theorem exists_free_of_pc_lt {f : Nat} (h : pc f < 26) :
    ∃ l, next_free_letter f = some l := by
  cases o : next_free_letter f with
  | some l => exact ⟨l, rfl⟩
  | none =>
    exfalso
    have hall := (next_free_letter_eq_none_iff f).mp o
    have : pc f = 26 := by
      unfold pc
      rw [List.countP_eq_length.mpr (fun b hbm => hall b (List.mem_range.mp hbm))]
      simp
    omega

/-- Helper: the fold computing `hb` returns `l` when `l` is the highest set
    bit below `k`. -/
theorem foldl_hb_eq (n : Nat) :
    ∀ k l, n.testBit l = true → l < k → (∀ b, l < b → b < k → n.testBit b = false) →
      (List.range k).foldl (fun m b => if n.testBit b then b else m) 0 = l := by
  intro k
  induction k with
  | zero => intro l _ h2 _; omega
  | succ k ih =>
    intro l h1 h2 h3
    rw [List.range_succ, List.foldl_append, List.foldl_cons, List.foldl_nil]
    by_cases hlk : l = k
    · subst hlk
      rw [if_pos h1]
    · have hlk' : l < k := by omega
      have hk : n.testBit k = false := h3 k hlk' (Nat.lt_succ_self k)
      rw [if_neg (by simp [hk])]
      exact ih l h1 hlk' (fun b hb1 hb2 => h3 b hb1 (by omega))

/-- Characterization of `hb` for a mask with known top bit. -/
theorem hb_eq_of_top {n l : Nat} (h1 : n.testBit l = true) (h2 : l < 26)
    (h3 : ∀ b, l < b → b < 26 → n.testBit b = false) : hb n = l :=
  foldl_hb_eq n 26 l h1 h2 h3

theorem hb_eq_of_lt_pow {n l : Nat} (h1 : n.testBit l = true) (h2 : l < 26)
    (h4 : n < 2 ^ (l + 1)) : hb n = l :=
  hb_eq_of_top h1 h2 (fun _ hb1 _ => testBit_false_of_lt_pow h4 hb1)

theorem foldl_hb_bound (n : Nat) :
    ∀ k, (List.range k).foldl (fun m b => if n.testBit b then b else m) 0 = 0 ∨
      (List.range k).foldl (fun m b => if n.testBit b then b else m) 0 < k := by
  intro k
  induction k with
  | zero => exact Or.inl rfl
  | succ k ih =>
    rw [List.range_succ, List.foldl_append, List.foldl_cons, List.foldl_nil]
    cases hk : n.testBit k
    · rw [if_neg (by simp)]
      rcases ih with h | h
      · exact Or.inl h
      · exact Or.inr (by omega)
    · rw [if_pos rfl]
      exact Or.inr (Nat.lt_succ_self k)

theorem hb_lt_26 (n : Nat) : hb n < 26 := by
  rcases foldl_hb_bound n 26 with h | h
  · unfold hb; omega
  · exact h

/-- Bits above the top bit of a well-formed word mask are clear. -/
theorem testBit_false_of_hb_lt {n b : Nat} (hn : n < 2 ^ (hb n + 1))
    (h : hb n < b) : n.testBit b = false :=
  testBit_false_of_lt_pow hn h

/- unionMasks lemmas -/

theorem unionMasks_nil : unionMasks [] = 0 := rfl

theorem unionMasks_cons (w : Word) (c : List Word) :
    unionMasks (w :: c) = w.bitword ||| unionMasks c := rfl

theorem and_unionMasks_eq_zero {a : Nat} {c : List Word}
    (h : ∀ w ∈ c, a &&& w.bitword = 0) : a &&& unionMasks c = 0 := by
  induction c with
  | nil => simp [unionMasks_nil]
  | cons w ws ih =>
    rw [unionMasks_cons]
    rw [and_eq_zero_iff]
    intro i
    cases hai : a.testBit i
    · exact Or.inl rfl
    · refine Or.inr ?_
      rw [Nat.testBit_or]
      have h1 := testBit_false_of_and_eq_zero (h w (by simp)) hai
      have h2 := testBit_false_of_and_eq_zero (ih (fun x hx => h x (by simp [hx]))) hai
      simp [h1, h2]

theorem unionMasks_and_eq_zero {a : Nat} {c : List Word}
    (h : ∀ w ∈ c, w.bitword &&& a = 0) : unionMasks c &&& a = 0 := by
  rw [Nat.and_comm]
  exact and_unionMasks_eq_zero (fun w hw => by rw [Nat.and_comm]; exact h w hw)

theorem testBit_unionMasks (c : List Word) (i : Nat) :
    (unionMasks c).testBit i = c.any (fun w => w.bitword.testBit i) := by
  induction c with
  | nil => simp [unionMasks_nil]
  | cons w ws ih => simp [unionMasks_cons, Nat.testBit_or, ih]

/-- Popcount of a union of pairwise disjoint 5-bit masks. -/
theorem pc_unionMasks {c : List Word}
    (hdis : c.Pairwise (fun a b => a.bitword &&& b.bitword = 0))
    (h5 : ∀ w ∈ c, pc w.bitword = 5) : pc (unionMasks c) = 5 * c.length := by
  induction c with
  | nil => simp [unionMasks_nil, pc]
  | cons w ws ih =>
    rw [unionMasks_cons]
    rw [pc_or_of_disjoint (and_unionMasks_eq_zero (List.pairwise_cons.mp hdis).1)]
    rw [h5 w (by simp), ih (List.pairwise_cons.mp hdis).2 (fun x hx => h5 x (by simp [hx]))]
    simp [List.length_cons]
    ring

/- ------------------------------------------------------------------ -/
/- Unfolding and counting infrastructure for the search.              -/
/- ------------------------------------------------------------------ -/

theorem solve14_none {fuel : Nat} {words : Nat → List Word} {skipped : Bool}
    {filter : Nat} {sol : Nat → Word} {i : Nat}
    (h : next_free_letter filter = none) :
    solve14 (fuel + 1) words skipped filter sol i = [] := by
  conv_lhs => rw [solve14]
  rw [h]

theorem solve14_some {fuel : Nat} {words : Nat → List Word} {skipped : Bool}
    {filter : Nat} {sol : Nat → Word} {i : Nat} {letter : Nat}
    (h : next_free_letter filter = some letter) :
    solve14 (fuel + 1) words skipped filter sol i =
      (if i = 4 then
        (words letter).filterMap (fun word =>
          if word.bitword &&& filter = 0 then
            some [sol 0, sol 1, sol 2, sol 3, word]
          else none)
      else
        (words letter).flatMap (fun word =>
          if word.bitword &&& filter = 0 then
            solve14 fuel words skipped (filter ||| word.bitword)
              (Function.update sol i word) (i + 1)
          else []))
      ++ (if !skipped then
            solve14 fuel words true (filter ||| (1 <<< letter)) sol i
          else []) := by
  conv_lhs => rw [solve14]
  rw [h]

theorem prefixOf_four (sol : Nat → Word) :
    prefixOf sol 4 = [sol 0, sol 1, sol 2, sol 3] := rfl

theorem prefixOf_update (sol : Nat → Word) (i : Nat) (w : Word) :
    prefixOf (Function.update sol i w) (i + 1) = prefixOf sol i ++ [w] := by
  unfold prefixOf
  rw [List.range_succ, List.map_append]
  congr 1
  · apply List.map_congr_left
    intro j hj
    exact Function.update_noteq (by simp at hj; omega) _ _
  · simp

/-- Counting over a flat map when at most one base element can contribute. -/
theorem count_flatMap_single {α β : Type} [BEq α] [LawfulBEq α] [BEq β] [LawfulBEq β]
    (x : β) (a : α) (f : α → List β) :
    ∀ l : List α, (∀ b ∈ l, b ≠ a → List.count x (f b) = 0) →
      List.count x (l.flatMap f) = List.count a l * List.count x (f a) := by
  intro l
  induction l with
  | nil => intro _; simp
  | cons b bs ih =>
    intro h
    rw [List.flatMap_cons, List.count_append, List.count_cons,
      ih (fun y hy => h y (by simp [hy]))]
    by_cases hba : b = a
    · subst hba
      simp [Nat.add_mul]
      omega
    · rw [h b (by simp) hba]
      simp [fun hc : b = a => hba hc]

/-- Counting over a filter map when at most one base element can contribute. -/
theorem count_filterMap_single {α β : Type} [BEq α] [LawfulBEq α] [BEq β]
    [LawfulBEq β] [DecidableEq β] (x : β) (a : α) (g : α → Option β) :
    ∀ l : List α, (∀ b ∈ l, b ≠ a → g b ≠ some x) →
      List.count x (l.filterMap g) =
        List.count a l * (if g a = some x then 1 else 0) := by
  intro l
  induction l with
  | nil => intro _; simp
  | cons b bs ih =>
    intro h
    rw [List.filterMap_cons, List.count_cons]
    have ihv := ih (fun y hy => h y (by simp [hy]))
    by_cases hba : b = a
    · subst hba
      cases hg : g b with
      | none =>
        rw [ihv]
        simp [hg, Nat.add_mul]
      | some y =>
        rw [List.count_cons, ihv]
        by_cases hyx : y = x
        · subst hyx
          simp [hg, Nat.add_mul]
        · simp [hg, hyx, Option.some_inj, Nat.add_mul,
            fun hc : y = x => hyx hc]
    · have hgb : g b ≠ some x := h b (by simp) hba
      cases hg : g b with
      | none =>
        rw [ihv]
        simp [fun hc : b = a => hba hc]
      | some y =>
        rw [List.count_cons, ihv]
        have hyx : y ≠ x := fun hc => hgb (by rw [hg, hc])
        simp [hyx, fun hc : b = a => hba hc]

/-- A member of a duplicate-free list is counted exactly once. -/
theorem count_eq_one_nodup {α : Type} [BEq α] [LawfulBEq α] {a : α} :
    ∀ {l : List α}, l.Nodup → a ∈ l → List.count a l = 1 := by
  intro l
  induction l with
  | nil => intro _ hm; cases hm
  | cons b bs ih =>
    intro hnd hm
    rw [List.count_cons]
    rcases List.mem_cons.mp hm with rfl | hm'
    · have hnotin : a ∉ bs := (List.nodup_cons.mp hnd).1
      rw [List.count_eq_zero.mpr hnotin]
      simp
    · have hba : b ≠ a := fun hc => (List.nodup_cons.mp hnd).1 (hc ▸ hm')
      rw [ih (List.nodup_cons.mp hnd).2 hm']
      simp [hba]

/-- Removing one satisfying element from a duplicate-free count. -/
theorem countP_drop_one {p : Nat → Bool} {x : Nat} :
    ∀ {l : List Nat}, l.Nodup → x ∈ l → p x = true →
      l.countP p = l.countP (fun b => p b && !(decide (x = b))) + 1 := by
  intro l
  induction l with
  | nil => intro _ hx; cases hx
  | cons y ys ih =>
    intro hnd hx hpx
    rw [List.countP_cons, List.countP_cons]
    rcases List.mem_cons.mp hx with rfl | hx'
    · have hnotin : x ∉ ys := (List.nodup_cons.mp hnd).1
      have : ys.countP p = ys.countP (fun b => p b && !(decide (x = b))) := by
        apply List.countP_congr
        intro b hbm
        have : x ≠ b := fun hc => hnotin (hc ▸ hbm)
        simp [this]
      rw [this, hpx]
      simp
    · have hyx : x ≠ y := fun hc => (List.nodup_cons.mp hnd).1 (hc ▸ hx')
      rw [ih (List.nodup_cons.mp hnd).2 hx' hpx]
      simp [hyx]
      omega

/- ------------------------------------------------------------------ -/
/- Well-formed index accessors.                                       -/
/- ------------------------------------------------------------------ -/

theorem wf_mem {words : Nat → List Word} (hwf : WFindex words) {l : Nat} {w : Word}
    (hl : l < 26) (hw : w ∈ words l) :
    pc w.bitword = 5 ∧ w.bitword.testBit l = true ∧ w.bitword < 2 ^ (l + 1) :=
  (hwf l hl).1 w hw

theorem wf_hb_eq {words : Nat → List Word} (hwf : WFindex words) {l : Nat} {w : Word}
    (hl : l < 26) (hw : w ∈ words l) : hb w.bitword = l :=
  hb_eq_of_lt_pow (wf_mem hwf hl hw).2.1 hl (wf_mem hwf hl hw).2.2

theorem wf_nodup {words : Nat → List Word} (hwf : WFindex words) {l : Nat}
    (hl : l < 26) : (words l).Nodup :=
  List.Pairwise.imp (fun hne heq => hne (congrArg Word.bitword heq)) (hwf l hl).2

theorem memhb_testBit {words : Nat → List Word} (hwf : WFindex words) {w : Word}
    (h : w ∈ words (hb w.bitword)) :
    w.bitword.testBit (hb w.bitword) = true :=
  (wf_mem hwf (hb_lt_26 _) h).2.1

theorem memhb_lt_pow {words : Nat → List Word} (hwf : WFindex words) {w : Word}
    (h : w ∈ words (hb w.bitword)) :
    w.bitword < 2 ^ (hb w.bitword + 1) :=
  (wf_mem hwf (hb_lt_26 _) h).2.2

theorem memhb_pc {words : Nat → List Word} (hwf : WFindex words) {w : Word}
    (h : w ∈ words (hb w.bitword)) : pc w.bitword = 5 :=
  (wf_mem hwf (hb_lt_26 _) h).1

/- Or-zero helpers. -/

theorem or_eq_zero_iff (a b : Nat) : a ||| b = 0 ↔ a = 0 ∧ b = 0 := by
  constructor
  · intro h
    constructor <;> apply Nat.eq_of_testBit_eq <;> intro i <;>
      have hi := congrArg (Nat.testBit · i) h <;>
      simp only [Nat.testBit_or, Nat.zero_testBit] at hi ⊢
    · exact (Bool.or_eq_false_iff.mp hi).1
    · exact (Bool.or_eq_false_iff.mp hi).2
  · rintro ⟨rfl, rfl⟩
    rfl

theorem and_or_eq_zero_iff (x f g : Nat) :
    x &&& (f ||| g) = 0 ↔ (x &&& f = 0 ∧ x &&& g = 0) := by
  rw [Nat.and_or_distrib_left, or_eq_zero_iff]

theorem and_shift_eq_zero_of_testBit {x l : Nat} (h : x.testBit l = false) :
    x &&& (1 <<< l) = 0 :=
  (land_shift_eq_zero_iff x l).mpr h

/- freeCount lemmas. -/

theorem getLastD_of_ne_nil {c : List Word} (h : c ≠ []) (x y : Word) :
    c.getLastD x = c.getLastD y := by
  cases c with
  | nil => exact absurd rfl h
  | cons a t => rw [List.getLastD_cons, List.getLastD_cons]

theorem freeCount_cons {filter : Nat} {w : Word} {c : List Word} (hc : c ≠ []) :
    freeCount filter (w :: c) = freeCount (filter ||| w.bitword) c := by
  unfold freeCount
  apply List.countP_congr
  intro b _
  rw [List.getLastD_cons, unionMasks_cons, getLastD_of_ne_nil hc w Word.dfl,
    ← Nat.or_assoc]

theorem freeCount_skip {filter : Nat} {c : List Word} {l : Nat} (hl : l < 26)
    (h1 : hb (c.getLastD Word.dfl).bitword < l)
    (h2 : (filter ||| unionMasks c).testBit l = false) :
    freeCount filter c = freeCount (filter ||| (1 <<< l)) c + 1 := by
  unfold freeCount
  rw [Nat.shiftLeft_eq, one_mul]
  have step : (List.range 26).countP (fun b =>
      decide (hb (c.getLastD Word.dfl).bitword < b) &&
        !((filter ||| 2 ^ l) ||| unionMasks c).testBit b) =
      (List.range 26).countP (fun b =>
        (decide (hb (c.getLastD Word.dfl).bitword < b) &&
          !(filter ||| unionMasks c).testBit b) && !(decide (l = b))) := by
    apply List.countP_congr
    intro b _
    simp only [Nat.testBit_or, Nat.testBit_two_pow]
    cases hw : decide (hb (c.getLastD Word.dfl).bitword < b) <;>
      cases hx : filter.testBit b <;>
      cases hy : (unionMasks c).testBit b <;>
      cases hz : decide (l = b) <;> rfl
  rw [step]
  refine countP_drop_one (List.nodup_range 26) (List.mem_range.mpr hl) ?_
  rw [h2]
  rw [decide_eq_true h1]
  rfl

/- ------------------------------------------------------------------ -/
/- How CompOK interacts with one step of the search.                  -/
/- ------------------------------------------------------------------ -/

/-- The top letter of the head of an emittable completion never exceeds the
    current free letter. -/
theorem compOK_head_hb_le {words : Nat → List Word} (hwf : WFindex words)
    {skipped : Bool} {filter l : Nat} {w : Word} {c : List Word}
    (hnfl : next_free_letter filter = some l)
    (h : CompOK words skipped filter (w :: c)) : hb w.bitword ≤ l := by
  by_contra hgt
  push_neg at hgt
  have hmem := (h.1 w (by simp)).1
  have hdisj := (h.1 w (by simp)).2
  have htb : w.bitword.testBit (hb w.bitword) = true := memhb_testBit hwf hmem
  have hfb : filter.testBit (hb w.bitword) = true :=
    next_free_letter_above hnfl _ hgt (hb_lt_26 _)
  have hff := testBit_false_of_and_eq_zero hdisj htb
  rw [hff] at hfb
  cases hfb

/-- All members of a completion sit at or below the top letter of its head. -/
theorem compOK_mem_hb_le {words : Nat → List Word}
    {skipped : Bool} {filter : Nat} {w : Word} {c : List Word}
    (h : CompOK words skipped filter (w :: c)) :
    ∀ x ∈ w :: c, hb x.bitword ≤ hb w.bitword := by
  intro x hx
  rcases List.mem_cons.mp hx with rfl | hx'
  · exact le_refl _
  · exact le_of_lt ((List.pairwise_cons.mp h.2.1).1 x hx').2

/-- Consume branch, forward: dropping the placed head word. -/
theorem compOK_consume_of {words : Nat → List Word}
    {skipped : Bool} {filter : Nat} {w : Word} {c : List Word} (hc : c ≠ [])
    (h : CompOK words skipped filter (w :: c)) :
    CompOK words skipped (filter ||| w.bitword) c := by
  obtain ⟨h1, h2, h3⟩ := h
  refine ⟨?_, (List.pairwise_cons.mp h2).2, ?_⟩
  · intro x hx
    refine ⟨(h1 x (by simp [hx])).1, ?_⟩
    have hxf := (h1 x (by simp [hx])).2
    have hxw : x.bitword &&& w.bitword = 0 := by
      rw [Nat.and_comm]
      exact ((List.pairwise_cons.mp h2).1 x hx).1
    rw [(and_or_eq_zero_iff _ _ _).mpr ⟨hxf, hxw⟩]
  · rw [← freeCount_cons hc]
    exact h3

/-- Consume branch, backward: re-attaching a head word placed at the current
    free letter. -/
theorem compOK_consume_to {words : Nat → List Word} (hwf : WFindex words)
    {skipped : Bool} {filter l : Nat} {w : Word} {c : List Word}
    (hnfl : next_free_letter filter = some l) (hc : c ≠ [])
    (hwl : w ∈ words l) (hwd : w.bitword &&& filter = 0)
    (h : CompOK words skipped (filter ||| w.bitword) c) :
    CompOK words skipped filter (w :: c) := by
  have hl26 := next_free_letter_lt hnfl
  have hhb : hb w.bitword = l := wf_hb_eq hwf hl26 hwl
  obtain ⟨h1, h2, h3⟩ := h
  have hxparts : ∀ x ∈ c, x.bitword &&& filter = 0 ∧ x.bitword &&& w.bitword = 0 :=
    fun x hx => (and_or_eq_zero_iff _ _ _).mp (h1 x hx).2
  have hxhb : ∀ x ∈ c, hb x.bitword < l := by
    intro x hx
    have hxm := (h1 x hx).1
    have hxt : x.bitword.testBit (hb x.bitword) = true := memhb_testBit hwf hxm
    rcases Nat.lt_trichotomy (hb x.bitword) l with hlt | heq | hgt
    · exact hlt
    · exfalso
      have hwt : w.bitword.testBit l = true := (wf_mem hwf hl26 hwl).2.1
      have := testBit_false_of_and_eq_zero (hxparts x hx).2 (heq ▸ hxt)
      rw [this] at hwt
      cases hwt
    · exfalso
      have hfb : filter.testBit (hb x.bitword) = true :=
        next_free_letter_above hnfl _ hgt (hb_lt_26 _)
      have := testBit_false_of_and_eq_zero (hxparts x hx).1 hxt
      rw [this] at hfb
      cases hfb
  refine ⟨?_, ?_, ?_⟩
  · intro x hx
    rcases List.mem_cons.mp hx with rfl | hx'
    · exact ⟨by rw [hhb]; exact hwl, hwd⟩
    · exact ⟨(h1 x hx').1, (hxparts x hx').1⟩
  · rw [List.pairwise_cons]
    refine ⟨fun x hx => ⟨?_, ?_⟩, h2⟩
    · rw [Nat.and_comm]
      exact (hxparts x hx).2
    · rw [hhb]
      exact hxhb x hx
  · rw [freeCount_cons hc]
    exact h3

/-- Skip branch, forward: when the head sits strictly below the current free
    letter, a skip of that letter is forced and consumes the one allowance. -/
theorem compOK_skip_of {words : Nat → List Word} (hwf : WFindex words)
    {filter l : Nat} {w : Word} {c : List Word}
    (hnfl : next_free_letter filter = some l)
    (hhb : hb w.bitword < l)
    (h : CompOK words false filter (w :: c)) :
    CompOK words true (filter ||| (1 <<< l)) (w :: c) := by
  have hl26 := next_free_letter_lt hnfl
  obtain ⟨h1, h2, h3⟩ := h
  have hble : ∀ x ∈ w :: c, hb x.bitword < l := by
    intro x hx
    have := compOK_mem_hb_le ⟨h1, h2, h3⟩ x hx
    omega
  have hmemtb : ∀ x ∈ w :: c, x.bitword.testBit l = false := by
    intro x hx
    exact testBit_false_of_lt_pow (memhb_lt_pow hwf (h1 x hx).1) (hble x hx)
  have hUfalse : (unionMasks (w :: c)).testBit l = false := by
    rw [testBit_unionMasks]
    simp only [List.any_eq_false]
    intro x hx
    simp [hmemtb x hx]
  have hFfalse : filter.testBit l = false := next_free_letter_free hnfl
  have horfalse : (filter ||| unionMasks (w :: c)).testBit l = false := by
    simp [Nat.testBit_or, hUfalse, hFfalse]
  have hlastmem : (w :: c).getLastD Word.dfl ∈ w :: c := by
    rw [List.getLastD_cons]
    exact List.getLastD_mem_cons c w
  have hlast : hb ((w :: c).getLastD Word.dfl).bitword < l := hble _ hlastmem
  have hdrop := freeCount_skip hl26 hlast horfalse
  refine ⟨?_, h2, ?_⟩
  · intro x hx
    refine ⟨(h1 x hx).1, ?_⟩
    exact (and_or_eq_zero_iff _ _ _).mpr
      ⟨(h1 x hx).2, and_shift_eq_zero_of_testBit (hmemtb x hx)⟩
  · have hle1 : freeCount filter (w :: c) ≤ 1 := by simpa using h3
    have hle0 : freeCount (filter ||| (1 <<< l)) (w :: c) ≤ 0 := by omega
    simpa using hle0

/-- Skip branch, backward. -/
theorem compOK_skip_to {words : Nat → List Word} (hwf : WFindex words)
    {filter l : Nat} {w : Word} {c : List Word}
    (hnfl : next_free_letter filter = some l)
    (h : CompOK words true (filter ||| (1 <<< l)) (w :: c)) :
    CompOK words false filter (w :: c) ∧ hb w.bitword < l := by
  have hl26 := next_free_letter_lt hnfl
  obtain ⟨h1, h2, h3⟩ := h
  have hxparts : ∀ x ∈ w :: c,
      x.bitword &&& filter = 0 ∧ x.bitword &&& (1 <<< l) = 0 :=
    fun x hx => (and_or_eq_zero_iff _ _ _).mp (h1 x hx).2
  have hmemtb : ∀ x ∈ w :: c, x.bitword.testBit l = false := by
    intro x hx
    have := (hxparts x hx).2
    rw [land_shift_eq_zero_iff] at this
    exact this
  have hble : ∀ x ∈ w :: c, hb x.bitword < l := by
    intro x hx
    have hxt : x.bitword.testBit (hb x.bitword) = true :=
      memhb_testBit hwf (h1 x hx).1
    rcases Nat.lt_trichotomy (hb x.bitword) l with hlt | heq | hgt
    · exact hlt
    · exfalso
      rw [heq] at hxt
      rw [hmemtb x hx] at hxt
      cases hxt
    · exfalso
      have hfb : filter.testBit (hb x.bitword) = true :=
        next_free_letter_above hnfl _ hgt (hb_lt_26 _)
      have := testBit_false_of_and_eq_zero (hxparts x hx).1 hxt
      rw [this] at hfb
      cases hfb
  have hUfalse : (unionMasks (w :: c)).testBit l = false := by
    rw [testBit_unionMasks]
    simp only [List.any_eq_false]
    intro x hx
    simp [hmemtb x hx]
  have hFfalse : filter.testBit l = false := next_free_letter_free hnfl
  have horfalse : (filter ||| unionMasks (w :: c)).testBit l = false := by
    simp [Nat.testBit_or, hUfalse, hFfalse]
  have hlastmem : (w :: c).getLastD Word.dfl ∈ w :: c := by
    rw [List.getLastD_cons]
    exact List.getLastD_mem_cons c w
  have hlast : hb ((w :: c).getLastD Word.dfl).bitword < l := hble _ hlastmem
  have hdrop := freeCount_skip hl26 hlast horfalse
  refine ⟨⟨fun x hx => ⟨(h1 x hx).1, (hxparts x hx).1⟩, h2, ?_⟩, hble w (by simp)⟩
  have hle0 : freeCount (filter ||| (1 <<< l)) (w :: c) ≤ 0 := by simpa using h3
  have hle1 : freeCount filter (w :: c) ≤ 1 := by omega
  simpa using hle1

/-- A completion whose head sits strictly below the current free letter is
    not emittable once the skip allowance is spent. -/
theorem not_compOK_true_of_lt {words : Nat → List Word} (hwf : WFindex words)
    {filter l : Nat} {w : Word} {c : List Word}
    (hnfl : next_free_letter filter = some l)
    (hhb : hb w.bitword < l) : ¬ CompOK words true filter (w :: c) := by
  intro h
  have hl26 := next_free_letter_lt hnfl
  obtain ⟨h1, h2, h3⟩ := h
  have hble : ∀ x ∈ w :: c, hb x.bitword < l := by
    intro x hx
    have := compOK_mem_hb_le ⟨h1, h2, h3⟩ x hx
    omega
  have hmemtb : ∀ x ∈ w :: c, x.bitword.testBit l = false := by
    intro x hx
    exact testBit_false_of_lt_pow (memhb_lt_pow hwf (h1 x hx).1) (hble x hx)
  have hUfalse : (unionMasks (w :: c)).testBit l = false := by
    rw [testBit_unionMasks]
    simp only [List.any_eq_false]
    intro x hx
    simp [hmemtb x hx]
  have hFfalse : filter.testBit l = false := next_free_letter_free hnfl
  have hlastmem : (w :: c).getLastD Word.dfl ∈ w :: c := by
    rw [List.getLastD_cons]
    exact List.getLastD_mem_cons c w
  have hpos : 0 < freeCount filter (w :: c) := by
    unfold freeCount
    rw [List.countP_pos]
    refine ⟨l, List.mem_range.mpr hl26, ?_⟩
    rw [decide_eq_true (hble _ hlastmem)]
    simp [Nat.testBit_or, hUfalse, hFfalse]
  have hle0 : freeCount filter (w :: c) ≤ 0 := by simpa using h3
  omega

/-- A completion whose head sits exactly at the skipped letter is not
    emittable after that skip. -/
theorem not_compOK_skip_of_hb_eq {words : Nat → List Word} (hwf : WFindex words)
    {filter l : Nat} {w : Word} {c : List Word} (hhb : hb w.bitword = l) :
    ¬ CompOK words true (filter ||| (1 <<< l)) (w :: c) := by
  intro h
  have hd := (h.1 w (by simp)).2
  have hm := (h.1 w (by simp)).1
  have htb : w.bitword.testBit l = true := by
    rw [← hhb]
    exact memhb_testBit hwf hm
  have := ((and_or_eq_zero_iff _ _ _).mp hd).2
  rw [land_shift_eq_zero_iff] at this
  rw [this] at htb
  cases htb

/-- CompOK on a singleton placed exactly at the current free letter. -/
theorem compOK_singleton {words : Nat → List Word} (hwf : WFindex words)
    {skipped : Bool} {filter l : Nat} {w : Word}
    (hnfl : next_free_letter filter = some l) (hhb : hb w.bitword = l) :
    CompOK words skipped filter [w] ↔
      (w ∈ words l ∧ w.bitword &&& filter = 0) := by
  have hl26 := next_free_letter_lt hnfl
  constructor
  · rintro ⟨h1, _, _⟩
    exact ⟨by rw [← hhb]; exact (h1 w (by simp)).1, (h1 w (by simp)).2⟩
  · rintro ⟨hm, hd⟩
    refine ⟨?_, by simp, ?_⟩
    · intro x hx
      rw [List.mem_singleton] at hx
      subst hx
      exact ⟨by rw [hhb]; exact hm, hd⟩
    · have hz : freeCount filter [w] = 0 := by
        unfold freeCount
        rw [List.countP_eq_zero]
        intro b hbm
        by_cases hlb : l < b
        · have hfb : filter.testBit b = true :=
            next_free_letter_above hnfl b hlb (List.mem_range.mp hbm)
          simp [Nat.testBit_or, hfb]
        · have : ([w].getLastD Word.dfl) = w := rfl
          rw [this, hhb]
          simp [hlb]
      rw [hz]
      simp

/- ------------------------------------------------------------------ -/
/- The characterization of solve14: shape and multiplicity of output. -/
/- ------------------------------------------------------------------ -/

/-- Core lemma: from any state with enough fuel, `solve14` emits only tuples
    extending the current solution prefix by a completion of the right
    length, and a given completion is emitted once if it satisfies `CompOK`
    and never otherwise. -/
theorem solve14_shape_count {words : Nat → List Word} (hwf : WFindex words) :
    ∀ fuel : Nat, ∀ (skipped : Bool) (filter : Nat) (sol : Nat → Word) (i : Nat),
      i ≤ 4 → (if skipped then 5 else 6) - i ≤ fuel →
      (∀ T ∈ solve14 fuel words skipped filter sol i,
        ∃ c, T = prefixOf sol i ++ c ∧ c.length = 5 - i) ∧
      (∀ c : List Word, c.length = 5 - i →
        List.count (prefixOf sol i ++ c) (solve14 fuel words skipped filter sol i) =
          if CompOK words skipped filter c then 1 else 0) := by
  intro fuel
  induction fuel using Nat.strong_induction_on with
  | _ fuel ih =>
    intro skipped filter sol i hi hfuel
    have hf1 : 1 ≤ fuel := by cases skipped <;> simp at hfuel <;> omega
    obtain ⟨f, rfl⟩ : ∃ f, fuel = f + 1 := ⟨fuel - 1, by omega⟩
    cases hnfl : next_free_letter filter with
    | none =>
      rw [solve14_none hnfl]
      constructor
      · intro T hT
        cases hT
      · intro c hc
        have hcomp : ¬ CompOK words skipped filter c := by
          intro h
          obtain ⟨w, c', rfl⟩ : ∃ w c', c = w :: c' := by
            cases c with
            | nil => exfalso; simp at hc; omega
            | cons w c' => exact ⟨w, c', rfl⟩
          have hmem := (h.1 w (by simp)).1
          have hdis := (h.1 w (by simp)).2
          have htb := memhb_testBit hwf hmem
          have hfb : filter.testBit (hb w.bitword) = true :=
            (next_free_letter_eq_none_iff filter).mp hnfl _ (hb_lt_26 _)
          have hff := testBit_false_of_and_eq_zero hdis htb
          rw [hff] at hfb
          cases hfb
        rw [if_neg hcomp]
        simp
    | some l =>
      have hl26 := next_free_letter_lt hnfl
      rw [solve14_some hnfl]
      by_cases hi4 : i = 4
      · -- the emitting level
        subst hi4
        rw [if_pos rfl]
        constructor
        · -- shape
          intro T hT
          rcases List.mem_append.mp hT with hT | hT
          · rcases List.mem_filterMap.mp hT with ⟨w, _, hgw⟩
            by_cases hd : w.bitword &&& filter = 0
            · rw [if_pos hd, Option.some_inj] at hgw
              exact ⟨[w], by rw [← hgw, prefixOf_four]; rfl, rfl⟩
            · rw [if_neg hd] at hgw
              cases hgw
          · cases skipped with
            | true => simp at hT
            | false =>
              rw [Bool.not_false, if_pos rfl] at hT
              simp at hfuel
              exact (ih f (by omega) true (filter ||| (1 <<< l)) sol 4
                (by omega) (by simp; omega)).1 T hT
        · -- count
          intro c hc
          obtain ⟨w5, rfl⟩ := List.length_eq_one.mp (by simpa using hc)
          have hpx : prefixOf sol 4 ++ [w5] = [sol 0, sol 1, sol 2, sol 3, w5] := rfl
          rw [List.count_append]
          have harg : ∀ b ∈ words l, b ≠ w5 →
              (fun word => if word.bitword &&& filter = 0 then
                some [sol 0, sol 1, sol 2, sol 3, word] else none) b ≠
                some (prefixOf sol 4 ++ [w5]) := by
            intro b _ hbne hgb
            simp only at hgb
            by_cases hd : b.bitword &&& filter = 0
            · rw [if_pos hd, hpx, Option.some_inj] at hgb
              simp at hgb
              exact hbne hgb
            · rw [if_neg hd] at hgb
              cases hgb
          have hemit : List.count (prefixOf sol 4 ++ [w5])
              ((words l).filterMap (fun word =>
                if word.bitword &&& filter = 0 then
                  some [sol 0, sol 1, sol 2, sol 3, word] else none)) =
              if w5 ∈ words l ∧ w5.bitword &&& filter = 0 then 1 else 0 := by
            rw [count_filterMap_single (prefixOf sol 4 ++ [w5]) w5 _ (words l) harg]
            by_cases hmem : w5 ∈ words l
            · rw [count_eq_one_nodup (wf_nodup hwf hl26) hmem, one_mul]
              by_cases hd : w5.bitword &&& filter = 0
              · have hcond : (if w5.bitword &&& filter = 0 then
                    some [sol 0, sol 1, sol 2, sol 3, w5] else none) =
                      some (prefixOf sol 4 ++ [w5]) := by
                  rw [if_pos hd, hpx]
                rw [if_pos hcond, if_pos ⟨hmem, hd⟩]
              · have hcond : ¬ ((if w5.bitword &&& filter = 0 then
                    some [sol 0, sol 1, sol 2, sol 3, w5] else none) =
                      some (prefixOf sol 4 ++ [w5])) := by
                  rw [if_neg hd]
                  simp
                rw [if_neg hcond, if_neg (by intro hcon; exact hd hcon.2)]
            · rw [List.count_eq_zero.mpr hmem, Nat.zero_mul,
                if_neg (by intro hcon; exact hmem hcon.1)]
          rw [hemit]
          by_cases hcm : w5 ∈ words l ∧ w5.bitword &&& filter = 0
          · have hhb5 : hb w5.bitword = l := wf_hb_eq hwf hl26 hcm.1
            rw [if_pos hcm]
            rw [if_pos ((compOK_singleton hwf hnfl hhb5).mpr hcm)]
            have hskip0 : List.count (prefixOf sol 4 ++ [w5])
                (if !skipped then
                  solve14 f words true (filter ||| (1 <<< l)) sol 4 else []) = 0 := by
              cases skipped with
              | true => simp
              | false =>
                rw [Bool.not_false, if_pos rfl]
                simp at hfuel
                have hIH := (ih f (by omega) true (filter ||| (1 <<< l)) sol 4
                  (by omega) (by simp; omega)).2 [w5] (by simp)
                rw [hIH, if_neg (not_compOK_skip_of_hb_eq hwf hhb5)]
            rw [hskip0]
          · rw [if_neg hcm]
            cases skipped with
            | true =>
              have hnc : ¬ CompOK words true filter [w5] := by
                intro hcomp
                have hle := compOK_head_hb_le hwf hnfl hcomp
                rcases Nat.lt_or_ge (hb w5.bitword) l with hlt | hge
                · exact not_compOK_true_of_lt hwf hnfl hlt hcomp
                · have hhb5 : hb w5.bitword = l := by omega
                  exact hcm ((compOK_singleton hwf hnfl hhb5).mp hcomp)
              rw [if_neg hnc]
              simp
            | false =>
              rw [Bool.not_false, if_pos rfl]
              simp at hfuel
              have hIH := (ih f (by omega) true (filter ||| (1 <<< l)) sol 4
                (by omega) (by simp; omega)).2 [w5] (by simp)
              rw [hIH]
              have hiff : CompOK words true (filter ||| (1 <<< l)) [w5] ↔
                  CompOK words false filter [w5] := by
                constructor
                · intro hcomp
                  exact (compOK_skip_to hwf hnfl hcomp).1
                · intro hcomp
                  have hle := compOK_head_hb_le hwf hnfl hcomp
                  rcases Nat.lt_or_ge (hb w5.bitword) l with hlt | hge
                  · exact compOK_skip_of hwf hnfl hlt hcomp
                  · exfalso
                    have hhb5 : hb w5.bitword = l := by omega
                    exact hcm ((compOK_singleton hwf hnfl hhb5).mp hcomp)
              rw [if_congr hiff rfl rfl]
              simp
      · -- a placing level: i < 4
        have hlt4 : i < 4 := by omega
        rw [if_neg hi4]
        have hfuelc : (if skipped then 5 else 6) - (i + 1) ≤ f := by
          cases skipped <;> simp at hfuel ⊢ <;> omega
        constructor
        · -- shape
          intro T hT
          rcases List.mem_append.mp hT with hT | hT
          · rcases List.mem_flatMap.mp hT with ⟨w, hwmem, hTF⟩
            by_cases hd : w.bitword &&& filter = 0
            · rw [if_pos hd] at hTF
              obtain ⟨c2, hc2, hc2len⟩ :=
                (ih f (by omega) skipped (filter ||| w.bitword)
                  (Function.update sol i w) (i + 1) (by omega) hfuelc).1 T hTF
              refine ⟨w :: c2, ?_, ?_⟩
              · rw [hc2, prefixOf_update, List.append_assoc, List.singleton_append]
              · rw [List.length_cons, hc2len]
                omega
            · rw [if_neg hd] at hTF
              cases hTF
          · cases skipped with
            | true => simp at hT
            | false =>
              rw [Bool.not_false, if_pos rfl] at hT
              simp at hfuel
              exact (ih f (by omega) true (filter ||| (1 <<< l)) sol i
                (by omega) (by simp; omega)).1 T hT
        · -- count
          intro c hc
          obtain ⟨w1, c', rfl⟩ := List.exists_of_length_succ c (show c.length = (4 - i) + 1 by omega)
          have hc' : c'.length = 4 - i := by simp at hc; omega
          have hc'ne : c' ≠ [] := by
            intro hnil
            rw [hnil] at hc'
            simp at hc'
            omega
          have hTpre : prefixOf sol i ++ (w1 :: c') =
              prefixOf (Function.update sol i w1) (i + 1) ++ c' := by
            rw [prefixOf_update, List.append_assoc, List.singleton_append]
          rw [List.count_append]
          have harg : ∀ b ∈ words l, b ≠ w1 →
              List.count (prefixOf sol i ++ (w1 :: c'))
                ((fun word => if word.bitword &&& filter = 0 then
                  solve14 f words skipped (filter ||| word.bitword)
                    (Function.update sol i word) (i + 1) else []) b) = 0 := by
            intro b _ hbne
            simp only
            by_cases hd : b.bitword &&& filter = 0
            · rw [if_pos hd]
              rw [List.count_eq_zero]
              intro hTmem
              obtain ⟨c2, hc2, _⟩ :=
                (ih f (by omega) skipped (filter ||| b.bitword)
                  (Function.update sol i b) (i + 1) (by omega) hfuelc).1 _ hTmem
              rw [prefixOf_update, List.append_assoc, List.singleton_append] at hc2
              have hcc := List.append_cancel_left hc2
              injection hcc with hhead _
              exact hbne hhead.symm
            · rw [if_neg hd]
              simp
          have hconsume : List.count (prefixOf sol i ++ (w1 :: c'))
              ((words l).flatMap (fun word =>
                if word.bitword &&& filter = 0 then
                  solve14 f words skipped (filter ||| word.bitword)
                    (Function.update sol i word) (i + 1) else [])) =
              if w1 ∈ words l ∧ w1.bitword &&& filter = 0 ∧
                  CompOK words skipped (filter ||| w1.bitword) c' then 1 else 0 := by
            rw [count_flatMap_single (prefixOf sol i ++ (w1 :: c')) w1 _
              (words l) harg]
            by_cases hmem : w1 ∈ words l
            · rw [count_eq_one_nodup (wf_nodup hwf hl26) hmem, one_mul]
              by_cases hd : w1.bitword &&& filter = 0
              · rw [if_pos hd]
                have hIH := (ih f (by omega) skipped (filter ||| w1.bitword)
                  (Function.update sol i w1) (i + 1) (by omega) hfuelc).2 c'
                  (show c'.length = 5 - (i + 1) by omega)
                rw [hTpre, hIH]
                by_cases hsub : CompOK words skipped (filter ||| w1.bitword) c'
                · rw [if_pos hsub, if_pos ⟨hmem, hd, hsub⟩]
                · rw [if_neg hsub, if_neg (by intro hcon; exact hsub hcon.2.2)]
              · rw [if_neg hd, List.count_nil,
                  if_neg (by intro hcon; exact hd hcon.2.1)]
            · rw [List.count_eq_zero.mpr hmem, Nat.zero_mul,
                if_neg (by intro hcon; exact hmem hcon.1)]
          rw [hconsume]
          by_cases hPcons : w1 ∈ words l ∧ w1.bitword &&& filter = 0 ∧
              CompOK words skipped (filter ||| w1.bitword) c'
          · have hhb1 : hb w1.bitword = l := wf_hb_eq hwf hl26 hPcons.1
            rw [if_pos hPcons]
            rw [if_pos (compOK_consume_to hwf hnfl hc'ne hPcons.1 hPcons.2.1
              hPcons.2.2)]
            have hskip0 : List.count (prefixOf sol i ++ (w1 :: c'))
                (if !skipped then
                  solve14 f words true (filter ||| (1 <<< l)) sol i else []) = 0 := by
              cases skipped with
              | true => simp
              | false =>
                rw [Bool.not_false, if_pos rfl]
                simp at hfuel
                have hIH := (ih f (by omega) true (filter ||| (1 <<< l)) sol i
                  (by omega) (by simp; omega)).2 (w1 :: c') hc
                rw [hIH, if_neg (not_compOK_skip_of_hb_eq hwf hhb1)]
            rw [hskip0]
          · rw [if_neg hPcons]
            cases skipped with
            | true =>
              have hnc : ¬ CompOK words true filter (w1 :: c') := by
                intro hcomp
                have hle := compOK_head_hb_le hwf hnfl hcomp
                rcases Nat.lt_or_ge (hb w1.bitword) l with hlt | hge
                · exact not_compOK_true_of_lt hwf hnfl hlt hcomp
                · have hhb1 : hb w1.bitword = l := by omega
                  apply hPcons
                  have hm : w1 ∈ words l := by
                    rw [← hhb1]
                    exact (hcomp.1 w1 (by simp)).1
                  exact ⟨hm, (hcomp.1 w1 (by simp)).2,
                    compOK_consume_of hc'ne hcomp⟩
              rw [if_neg hnc]
              simp
            | false =>
              rw [Bool.not_false, if_pos rfl]
              simp at hfuel
              have hIH := (ih f (by omega) true (filter ||| (1 <<< l)) sol i
                (by omega) (by simp; omega)).2 (w1 :: c') hc
              rw [hIH]
              have hiff : CompOK words true (filter ||| (1 <<< l)) (w1 :: c') ↔
                  CompOK words false filter (w1 :: c') := by
                constructor
                · intro hcomp
                  exact (compOK_skip_to hwf hnfl hcomp).1
                · intro hcomp
                  have hle := compOK_head_hb_le hwf hnfl hcomp
                  rcases Nat.lt_or_ge (hb w1.bitword) l with hlt | hge
                  · exact compOK_skip_of hwf hnfl hlt hcomp
                  · exfalso
                    have hhb1 : hb w1.bitword = l := by omega
                    apply hPcons
                    have hm : w1 ∈ words l := by
                      rw [← hhb1]
                      exact (hcomp.1 w1 (by simp)).1
                    exact ⟨hm, (hcomp.1 w1 (by simp)).2,
                      compOK_consume_of hc'ne hcomp⟩
              rw [if_congr hiff rfl rfl]
              simp

/- ------------------------------------------------------------------ -/
/- Fuel stability and the two entry modes.                            -/
/- ------------------------------------------------------------------ -/

theorem countP_add_countP_not {α : Type} (q : α → Bool) (L : List α) :
    L.countP q + L.countP (fun b => !(q b)) = L.length := by
  induction L with
  | nil => simp
  | cons x xs ih =>
    rw [List.countP_cons, List.countP_cons]
    cases hq : q x <;> simp [hq] <;> omega

theorem flatMap_congr_mem {α β : Type} {l : List α} {f g : α → List β}
    (h : ∀ a ∈ l, f a = g a) : l.flatMap f = l.flatMap g := by
  induction l with
  | nil => rfl
  | cons x xs ih =>
    rw [List.flatMap_cons, List.flatMap_cons, h x (by simp),
      ih (fun a ha => h a (by simp [ha]))]

/-- One extra unit of fuel changes nothing once the measure is covered. -/
theorem solve14_fuel_succ {words : Nat → List Word} :
    ∀ f : Nat, ∀ (skipped : Bool) (filter : Nat) (sol : Nat → Word) (i : Nat),
      i ≤ 4 → (if skipped then 5 else 6) - i ≤ f →
      solve14 (f + 1) words skipped filter sol i =
        solve14 f words skipped filter sol i := by
  intro f
  induction f using Nat.strong_induction_on with
  | _ f ih =>
    intro skipped filter sol i hi hfuel
    have hf1 : 1 ≤ f := by cases skipped <;> simp at hfuel <;> omega
    obtain ⟨g, rfl⟩ : ∃ g, f = g + 1 := ⟨f - 1, by omega⟩
    cases hnfl : next_free_letter filter with
    | none => rw [solve14_none hnfl, solve14_none hnfl]
    | some l =>
      rw [solve14_some hnfl, solve14_some hnfl]
      congr 1
      · by_cases hi4 : i = 4
        · rw [if_pos hi4, if_pos hi4]
        · rw [if_neg hi4, if_neg hi4]
          apply flatMap_congr_mem
          intro w _
          by_cases hd : w.bitword &&& filter = 0
          · rw [if_pos hd, if_pos hd]
            exact ih g (by omega) skipped (filter ||| w.bitword)
              (Function.update sol i w) (i + 1) (by omega)
              (by cases skipped <;> simp at hfuel ⊢ <;> omega)
          · rw [if_neg hd, if_neg hd]
      · cases skipped with
        | true => rfl
        | false =>
          rw [Bool.not_false, if_pos rfl, if_pos rfl]
          simp at hfuel
          exact ih g (by omega) true (filter ||| (1 <<< l)) sol i (by omega)
            (by simp; omega)

/-- Fuel above the measure is irrelevant. -/
theorem solve14_fuel_ge {words : Nat → List Word} :
    ∀ f2 f1 : Nat, ∀ (skipped : Bool) (filter : Nat) (sol : Nat → Word) (i : Nat),
      i ≤ 4 → (if skipped then 5 else 6) - i ≤ f1 → f1 ≤ f2 →
      solve14 f2 words skipped filter sol i =
        solve14 f1 words skipped filter sol i := by
  intro f2
  induction f2 with
  | zero =>
    intro f1 skipped filter sol i _ _ h12
    have : f1 = 0 := by omega
    rw [this]
  | succ f2 ih =>
    intro f1 skipped filter sol i hi hfuel h12
    rcases Nat.lt_or_ge f1 (f2 + 1) with hlt | hge
    · rw [solve14_fuel_succ f2 skipped filter sol i hi (by omega)]
      exact ih f1 skipped filter sol i hi hfuel (by omega)
    · have heq : f1 = f2 + 1 := by omega
      rw [heq]

/-- The hand-unrolled entry modes of `solve` and the generic recursion
    started at depth 0 with an empty filter produce identical output. -/
theorem solve_eq_generic {words : Nat → List Word} (hwf : WFindex words) :
    solve words = solve14 10 words false 0 (fun _ => Word.dfl) 0 := by
  have hnfl0 : next_free_letter 0 = some 25 := by decide
  have hnfl25 : next_free_letter (0 ||| (1 <<< 25)) = some 24 := by decide
  rw [show (10 : Nat) = 9 + 1 from rfl, solve14_some hnfl0]
  rw [if_neg (by omega : ¬ (0 : Nat) = 4)]
  rw [Bool.not_false, if_pos rfl]
  rw [show (9 : Nat) = 8 + 1 from rfl, solve14_some hnfl25]
  rw [if_neg (by omega : ¬ (0 : Nat) = 4)]
  rw [if_neg (by simp : ¬ ((!true) = true)), List.append_nil]
  unfold solve
  congr 1
  · apply flatMap_congr_mem
    intro w _
    rw [if_pos (Nat.and_zero _), Nat.zero_or]
    exact solve14_fuel_ge 10 9 false w.bitword
      (Function.update (fun _ => Word.dfl) 0 w) 1 (by omega) (by simp) (by omega)
  · apply flatMap_congr_mem
    intro w hw
    have hdis : w.bitword &&& (0 ||| 1 <<< 25) = 0 := by
      rw [Nat.zero_or, land_shift_eq_zero_iff]
      exact testBit_false_of_lt_pow (wf_mem hwf (by omega) hw).2.2 (by omega)
    rw [if_pos hdis, Nat.zero_or, Nat.or_comm (1 <<< 25) w.bitword]
    exact solve14_fuel_ge 10 8 true (w.bitword ||| 1 <<< 25)
      (Function.update (fun _ => Word.dfl) 0 w) 1 (by omega) (by simp) (by omega)

/- ------------------------------------------------------------------ -/
/- The delivered-solutions theorem.                                   -/
/- ------------------------------------------------------------------ -/

/-- From the empty state, emittable completions of length 5 are exactly the
    valid tuples. -/
theorem compOK_zero_iff_valid {words : Nat → List Word} (hwf : WFindex words)
    {T : List Word} (hlen : T.length = 5) :
    CompOK words false 0 T ↔ ValidTuple words T := by
  constructor
  · rintro ⟨h1, h2, _⟩
    refine ⟨hlen, fun w hw => (h1 w hw).1, h2, ?_⟩
    have hdis : T.Pairwise (fun a b : Word => a.bitword &&& b.bitword = 0) :=
      h2.imp (fun h => h.1)
    have h5 : ∀ w ∈ T, pc w.bitword = 5 := fun w hw => memhb_pc hwf (h1 w hw).1
    rw [pc_unionMasks hdis h5, hlen]
  · rintro ⟨_, h1, h2, h4⟩
    refine ⟨fun w hw => ⟨h1 w hw, Nat.and_zero _⟩, h2, ?_⟩
    have hsub : freeCount 0 T ≤
        (List.range 26).countP (fun b => !(unionMasks T).testBit b) := by
      unfold freeCount
      apply List.countP_mono_left
      intro b _ hp
      rw [Nat.zero_or] at hp
      exact (Bool.and_eq_true_iff.mp hp).2
    have hcc := countP_add_countP_not (fun b => (unionMasks T).testBit b)
      (List.range 26)
    have hpcT : (List.range 26).countP (fun b => (unionMasks T).testBit b) = 25 := h4
    rw [List.length_range] at hcc
    have hite : (if (false : Bool) = true then 0 else 1) = 1 := rfl
    rw [hite]
    omega

/-- Every ordered tuple is delivered by `solve` exactly once if it is a valid
    msl-descending cover, and never otherwise. -/
theorem solve_count {words : Nat → List Word} (hwf : WFindex words)
    (T : List Word) :
    List.count T (solve words) = if ValidTuple words T then 1 else 0 := by
  rw [solve_eq_generic hwf]
  have hpe : prefixOf (fun _ => Word.dfl) 0 = [] := rfl
  by_cases hlen : T.length = 5
  · have hmain := (solve14_shape_count hwf 10 false 0 (fun _ => Word.dfl) 0
      (by omega) (by simp)).2 T (by omega)
    rw [hpe, List.nil_append] at hmain
    rw [hmain]
    exact if_congr (compOK_zero_iff_valid hwf hlen) rfl rfl
  · have hshape := (solve14_shape_count hwf 10 false 0 (fun _ => Word.dfl) 0
      (by omega) (by simp)).1
    have hnot : T ∉ solve14 10 words false 0 (fun _ => Word.dfl) 0 := by
      intro hmem
      obtain ⟨c, hc1, hc2⟩ := hshape T hmem
      rw [hpe, List.nil_append] at hc1
      apply hlen
      rw [hc1, hc2]
    rw [List.count_eq_zero.mpr hnot, if_neg (fun hv => hlen hv.1)]

/-- Everything `solve` delivers is a valid msl-descending cover. -/
theorem mem_solve_valid {words : Nat → List Word} (hwf : WFindex words)
    {T : List Word} (hT : T ∈ solve words) : ValidTuple words T := by
  by_contra hv
  have hcount := solve_count hwf T
  rw [if_neg hv] at hcount
  exact absurd hT (List.count_eq_zero.mp hcount)

/-- One missing rank position in every delivered cover. -/
theorem valid_missing_one {words : Nat → List Word} {T : List Word}
    (hv : ValidTuple words T) :
    ((List.range 26).countP (fun b => !(unionMasks T).testBit b)) = 1 := by
  have hcc := countP_add_countP_not (fun b => (unionMasks T).testBit b)
    (List.range 26)
  have h25 : (List.range 26).countP (fun b => (unionMasks T).testBit b) = 25 :=
    hv.2.2.2
  rw [List.length_range] at hcc
  omega

/- ------------------------------------------------------------------ -/
/- The operational view: invariant, progress and the skip allowance.  -/
/- ------------------------------------------------------------------ -/

/-- One recursive call preserves the state invariant. -/
theorem step_preserves_inv {words : Nat → List Word} (hwf : WFindex words)
    {s t : SState} (hst : SearchStep words s t)
    (h : 1 ≤ s.i ∧ s.i ≤ 4 ∧
      pc s.filter ≤ 5 * s.i + (if s.skipped then 1 else 0)) :
    1 ≤ t.i ∧ t.i ≤ 4 ∧
      pc t.filter ≤ 5 * t.i + (if t.skipped then 1 else 0) := by
  obtain ⟨h1, h2, h3⟩ := h
  cases hst with
  | @consume l w hi4 hnfl hwl hdis =>
    have hl26 := next_free_letter_lt hnfl
    have h5 : pc w.bitword = 5 := (wf_mem hwf hl26 hwl).1
    have hpc : pc (s.filter ||| w.bitword) = pc s.filter + 5 := by
      rw [pc_or_of_disjoint (by rw [Nat.and_comm]; exact hdis), h5]
    refine ⟨by simp, by simp; omega, ?_⟩
    simp only [hpc]
    omega
  | @skip l hsk hnfl =>
    have hl26 := next_free_letter_lt hnfl
    have hpc : pc (s.filter ||| 1 <<< l) ≤ pc s.filter + 1 := by
      calc pc (s.filter ||| 1 <<< l) ≤ pc s.filter + pc (1 <<< l) := pc_or_le _ _
        _ = pc s.filter + 1 := by
          rw [show (1 <<< l : Nat) = 2 ^ l from by
            rw [Nat.shiftLeft_eq, one_mul], pc_two_pow hl26]
    rw [hsk] at h3
    refine ⟨by simp; omega, by simp; omega, ?_⟩
    simp only
    simp at h3
    simp
    omega

/-- The filter of a reachable state stays at or below `5*i + 1` set bits. -/
theorem reachable_inv {words : Nat → List Word} (hwf : WFindex words)
    {s : SState} (h : ReachableState words s) :
    1 ≤ s.i ∧ s.i ≤ 4 ∧
      pc s.filter ≤ 5 * s.i + (if s.skipped then 1 else 0) := by
  obtain ⟨e, he, hsteps⟩ := h
  induction hsteps with
  | refl =>
    rcases he with ⟨w, hw, rfl⟩ | ⟨w, hw, rfl⟩
    · have h5 : pc w.bitword = 5 := (wf_mem hwf (by omega) hw).1
      refine ⟨by simp, by simp, ?_⟩
      simp
      omega
    · have h5 : pc w.bitword = 5 := (wf_mem hwf (by omega) hw).1
      have hlt : w.bitword < 2 ^ 25 := (wf_mem hwf (by omega) hw).2.2
      have hdis : w.bitword &&& (1 <<< 25) = 0 :=
        and_shift_eq_zero_of_testBit (testBit_false_of_lt_pow hlt (by omega))
      have hpc : pc (w.bitword ||| 1 <<< 25) = 6 := by
        rw [show (1 <<< 25 : Nat) = 2 ^ 25 from rfl] at hdis ⊢
        rw [pc_or_of_disjoint hdis, h5, pc_two_pow (by omega)]
      refine ⟨by simp, by simp, ?_⟩
      have hle : pc (w.bitword ||| 1 <<< 25) ≤ 6 := le_of_eq hpc
      simpa using hle
  | tail hpre hstep ihp =>
    exact step_preserves_inv hwf hstep ihp

/-- On every reachable state the free-letter lookup succeeds: the unwrap in
    `solve14` never panics. -/
theorem reachable_next_free_isSome {words : Nat → List Word}
    (hwf : WFindex words) {s : SState} (h : ReachableState words s) :
    (next_free_letter s.filter).isSome = true := by
  obtain ⟨h1, h2, h3⟩ := reachable_inv hwf h
  have hlt : pc s.filter < 26 := by
    cases hs : s.skipped <;> rw [hs] at h3 <;> simp at h3 <;> omega
  obtain ⟨l, hl⟩ := exists_free_of_pc_lt hlt
  rw [hl]
  rfl

/-- The skipped flag never returns to false. -/
theorem searchStep_skipped_mono {words : Nat → List Word} {s t : SState}
    (h : SearchStep words s t) (hs : s.skipped = true) : t.skipped = true := by
  cases h with
  | consume _ _ _ _ => exact hs
  | skip hsk _ => rfl

/-- Every recursive call strictly decreases the termination measure, and
    either fills one more slot or burns the skip allowance. -/
theorem searchStep_decreases {words : Nat → List Word} (hwf : WFindex words)
    {s t : SState} (hr : ReachableState words s) (hst : SearchStep words s t) :
    stepMeasure t < stepMeasure s ∧
      ((s.i < t.i ∧ t.i ≤ 4 ∧ t.skipped = s.skipped) ∨
        (s.skipped = false ∧ t.skipped = true ∧ t.i = s.i)) := by
  obtain ⟨h1, h2, _⟩ := reachable_inv hwf hr
  cases hst with
  | @consume l w hi4 hnfl hwl hdis =>
    refine ⟨?_, Or.inl ⟨by simp, by simp; omega, rfl⟩⟩
    unfold stepMeasure
    simp only
    omega
  | @skip l hsk hnfl =>
    refine ⟨?_, Or.inr ⟨hsk, rfl, rfl⟩⟩
    unfold stepMeasure
    simp only [hsk]
    simp

/-- Reachability is closed under steps. -/
theorem reachable_tail {words : Nat → List Word} {s t : SState}
    (hr : ReachableState words s) (hst : SearchStep words s t) :
    ReachableState words t := by
  obtain ⟨e, he, hsteps⟩ := hr
  exact ⟨e, he, Relation.ReflTransGen.tail hsteps hst⟩

/-- No infinite run of recursive calls exists from a reachable state. -/
theorem no_infinite_search {words : Nat → List Word} (hwf : WFindex words) :
    ¬ ∃ seq : Nat → SState, ReachableState words (seq 0) ∧
      ∀ n, SearchStep words (seq n) (seq (n + 1)) := by
  rintro ⟨seq, h0, hstep⟩
  have hreach : ∀ n, ReachableState words (seq n) := by
    intro n
    induction n with
    | zero => exact h0
    | succ n ih => exact reachable_tail ih (hstep n)
  have hdec : ∀ n, stepMeasure (seq (n + 1)) < stepMeasure (seq n) :=
    fun n => (searchStep_decreases hwf (hreach n) (hstep n)).1
  have hbound : ∀ n, stepMeasure (seq n) + n ≤ stepMeasure (seq 0) := by
    intro n
    induction n with
    | zero => omega
    | succ n ih =>
      have := hdec n
      omega
  have := hbound (stepMeasure (seq 0) + 1)
  omega

/-- After the flag is set, no later call flips it again. -/
theorem chain_skip_flips_zero {words : Nat → List Word} :
    ∀ (p : List SState) (b : SState), b.skipped = true →
      List.Chain' (SearchStep words) (b :: p) →
      ((b :: p).zip p).countP (fun q => !q.1.skipped && q.2.skipped) = 0 := by
  intro p
  induction p with
  | nil => intro b _ _; rfl
  | cons c rest ih =>
    intro b hb hchain
    have hstep : SearchStep words b c := (List.chain'_cons.mp hchain).1
    have hc : c.skipped = true := searchStep_skipped_mono hstep hb
    have hrest := (List.chain'_cons.mp hchain).2
    rw [List.zip_cons_cons, List.countP_cons]
    rw [ih c hc hrest]
    simp [hb]

/-- Along any chain of recursive calls the skip branch fires at most once. -/
theorem chain_skip_at_most_once {words : Nat → List Word} :
    ∀ p : List SState, List.Chain' (SearchStep words) p →
      (p.zip p.tail).countP (fun q => !q.1.skipped && q.2.skipped) ≤ 1 := by
  intro p
  induction p with
  | nil => intro _; simp
  | cons a rest ih =>
    intro hchain
    cases rest with
    | nil => simp
    | cons b rest2 =>
      have hstep : SearchStep words a b := (List.chain'_cons.mp hchain).1
      have htail := (List.chain'_cons.mp hchain).2
      simp only [List.tail_cons, List.zip_cons_cons, List.countP_cons]
      have htail_le := ih htail
      simp only [List.tail_cons] at htail_le
      cases ha : a.skipped with
      | true =>
        have hzero := chain_skip_flips_zero rest2 b
          (searchStep_skipped_mono hstep ha) htail
        rw [hzero]
        simp [ha]
      | false =>
        cases hbsk : b.skipped with
        | false =>
          simp
          omega
        | true =>
          have hzero := chain_skip_flips_zero rest2 b hbsk htail
          rw [hzero]
          simp [ha, hbsk]

/- ------------------------------------------------------------------ -/
/- Parsing: characterization of Word::new.                            -/
/- ------------------------------------------------------------------ -/

theorem letterOffset_lowercase {b : Nat} (h1 : 97 ≤ b) (h2 : b ≤ 122) :
    letterOffset b % 32 = b - 97 := by
  unfold letterOffset
  omega

theorem or_shift_eq_self_of_testBit {m k : Nat} (h : m.testBit k = true) :
    m ||| 1 <<< k = m := by
  rw [Nat.shiftLeft_eq, one_mul]
  apply Nat.eq_of_testBit_eq
  intro i
  rw [Nat.testBit_or, Nat.testBit_two_pow]
  by_cases hik : k = i
  · subst hik
    rw [h]
    simp
  · simp [hik]

/-- The parse fold never counts more than one per byte. -/
theorem new_fold_count_le :
    ∀ (l : List Nat) (m cnt : Nat),
      (l.foldl (fun (p : Nat × Nat) letter =>
        if p.1 &&& (1 <<< (letterOffset letter % 32)) = 0 then
          (p.1 ||| (1 <<< (letterOffset letter % 32)), p.2 + 1) else p)
        (m, cnt)).2 ≤ cnt + l.length := by
  intro l
  induction l with
  | nil => intro m cnt; simp
  | cons b rest ih =>
    intro m cnt
    simp only [List.foldl_cons, List.length_cons]
    by_cases hm : m &&& (1 <<< (letterOffset b % 32)) = 0
    · rw [if_pos hm]
      have := ih (m ||| 1 <<< (letterOffset b % 32)) (cnt + 1)
      omega
    · rw [if_neg hm]
      have := ih m cnt
      omega

/-- The parse fold accumulates exactly the raw mask. -/
theorem new_fold_mask :
    ∀ (l : List Nat) (m cnt : Nat),
      (l.foldl (fun (p : Nat × Nat) letter =>
        if p.1 &&& (1 <<< (letterOffset letter % 32)) = 0 then
          (p.1 ||| (1 <<< (letterOffset letter % 32)), p.2 + 1) else p)
        (m, cnt)).1 =
        l.foldl (fun m b => m ||| (1 <<< (letterOffset b % 32))) m := by
  intro l
  induction l with
  | nil => intro m cnt; rfl
  | cons b rest ih =>
    intro m cnt
    simp only [List.foldl_cons]
    by_cases hm : m &&& (1 <<< (letterOffset b % 32)) = 0
    · rw [if_pos hm]
      exact ih _ _
    · rw [if_neg hm]
      have htb : m.testBit (letterOffset b % 32) = true := by
        by_contra hc
        exact hm ((land_shift_eq_zero_iff _ _).mpr (Bool.eq_false_iff.mpr hc))
      rw [or_shift_eq_self_of_testBit htb]
      exact ih _ _

/-- The parse fold reaches the full count exactly on duplicate-free fresh
    lowercase input. -/
theorem new_fold_count_iff :
    ∀ (l : List Nat) (m cnt : Nat), (∀ b ∈ l, 97 ≤ b ∧ b ≤ 122) →
      ((l.foldl (fun (p : Nat × Nat) letter =>
        if p.1 &&& (1 <<< (letterOffset letter % 32)) = 0 then
          (p.1 ||| (1 <<< (letterOffset letter % 32)), p.2 + 1) else p)
        (m, cnt)).2 = cnt + l.length ↔
        (l.Nodup ∧ ∀ b ∈ l, m.testBit (b - 97) = false)) := by
  intro l
  induction l with
  | nil => intro m cnt _; simp
  | cons b rest ih =>
    intro m cnt hlc
    have hb := hlc b (by simp)
    have hk := letterOffset_lowercase hb.1 hb.2
    simp only [List.foldl_cons, List.length_cons]
    cases hm : m.testBit (b - 97) with
    | false =>
      have hcond : m &&& (1 <<< (letterOffset b % 32)) = 0 := by
        rw [hk]
        exact (land_shift_eq_zero_iff _ _).mpr hm
      rw [if_pos hcond]
      have hfold : (rest.foldl (fun (p : Nat × Nat) letter =>
          if p.1 &&& (1 <<< (letterOffset letter % 32)) = 0 then
            (p.1 ||| (1 <<< (letterOffset letter % 32)), p.2 + 1) else p)
          (m ||| 1 <<< (letterOffset b % 32), cnt + 1)).2 = cnt + 1 + rest.length ↔
          (rest.Nodup ∧ ∀ x ∈ rest,
            (m ||| 1 <<< (letterOffset b % 32)).testBit (x - 97) = false) :=
        ih (m ||| 1 <<< (letterOffset b % 32)) (cnt + 1)
          (fun x hx => hlc x (by simp [hx]))
      have hbit : ∀ x, 97 ≤ x → x ≤ 122 →
          ((m ||| 1 <<< (letterOffset b % 32)).testBit (x - 97) =
            (m.testBit (x - 97) || decide (x = b))) := by
        intro x hx1 hx2
        rw [hk, Nat.testBit_or, Nat.shiftLeft_eq, one_mul, Nat.testBit_two_pow]
        have heq : decide (b - 97 = x - 97) = decide (x = b) := by
          by_cases hxb : x = b
          · subst hxb; simp
          · have hne : ¬ (b - 97 = x - 97) := by omega
            simp [hxb, hne]
        rw [heq]
      have harith : cnt + (rest.length + 1) = cnt + 1 + rest.length := by omega
      rw [harith, hfold]
      constructor
      · rintro ⟨hnd, hfresh⟩
        have hnotin : b ∉ rest := by
          intro hbr
          have hx := hfresh b hbr
          rw [hbit b hb.1 hb.2, hm] at hx
          simp at hx
        refine ⟨List.nodup_cons.mpr ⟨hnotin, hnd⟩, ?_⟩
        intro x hx
        rcases List.mem_cons.mp hx with rfl | hx'
        · exact hm
        · have hz := hfresh x hx'
          rw [hbit x (hlc x (by simp [hx'])).1 (hlc x (by simp [hx'])).2] at hz
          exact (Bool.or_eq_false_iff.mp hz).1
      · rintro ⟨hnd, hfresh⟩
        have hnotin : b ∉ rest := (List.nodup_cons.mp hnd).1
        refine ⟨(List.nodup_cons.mp hnd).2, ?_⟩
        intro x hx
        rw [hbit x (hlc x (by simp [hx])).1 (hlc x (by simp [hx])).2]
        rw [hfresh x (by simp [hx])]
        have hne : ¬ (x = b) := fun hc => hnotin (hc ▸ hx)
        simp [hne]
    | true =>
      have hcond : ¬ (m &&& (1 <<< (letterOffset b % 32)) = 0) := by
        rw [hk]
        intro hc
        rw [(land_shift_eq_zero_iff _ _).mp hc] at hm
        cases hm
      rw [if_neg hcond]
      have hle := new_fold_count_le rest m cnt
      constructor
      · intro heq
        exfalso
        omega
      · rintro ⟨_, hfresh⟩
        exfalso
        have hz := hfresh b (by simp)
        rw [hm] at hz
        cases hz

/-- Definitional unfolding of `Word.new` with the let bindings inlined. -/
theorem word_new_def (line : List Nat) :
    Word.new line = if line.length = 5 then
      (if (line.foldl (fun (p : Nat × Nat) letter =>
          if p.1 &&& (1 <<< (letterOffset letter % 32)) = 0 then
            (p.1 ||| (1 <<< (letterOffset letter % 32)), p.2 + 1) else p)
          (0, 0)).2 = 5
       then some ⟨(line.foldl (fun (p : Nat × Nat) letter =>
          if p.1 &&& (1 <<< (letterOffset letter % 32)) = 0 then
            (p.1 ||| (1 <<< (letterOffset letter % 32)), p.2 + 1) else p)
          (0, 0)).1, line⟩ else none)
    else none := rfl

/-- With lowercase input, `Word::new` accepts exactly the 5-byte lines with 5
    pairwise distinct letters. -/
theorem word_new_isSome_iff {line : List Nat}
    (hlc : ∀ b ∈ line, 97 ≤ b ∧ b ≤ 122) :
    (Word.new line).isSome = true ↔ (line.length = 5 ∧ line.Nodup) := by
  rw [word_new_def]
  by_cases hl : line.length = 5
  · rw [if_pos hl]
    have hiff := new_fold_count_iff line 0 0 hlc
    by_cases hr : (line.foldl (fun (p : Nat × Nat) letter =>
        if p.1 &&& (1 <<< (letterOffset letter % 32)) = 0 then
          (p.1 ||| (1 <<< (letterOffset letter % 32)), p.2 + 1) else p)
        (0, 0)).2 = 5
    · rw [if_pos hr]
      simp only [Option.isSome_some, true_iff]
      refine ⟨hl, ?_⟩
      have := hiff.mp (by rw [hr, hl])
      exact this.1
    · rw [if_neg hr]
      simp only [Option.isSome_none]
      constructor
      · intro hc; cases hc
      · rintro ⟨_, hnd⟩
        exfalso
        apply hr
        rw [hiff.mpr ⟨hnd, fun b _ => Nat.zero_testBit _⟩, hl]
  · rw [if_neg hl]
    simp only [Option.isSome_none]
    constructor
    · intro hc; cases hc
    · rintro ⟨hc, _⟩; exact absurd hc hl

/-- A word parsed from a lowercase line is well formed. -/
theorem word_new_wf {line : List Nat} {w : Word}
    (hlc : ∀ b ∈ line, 97 ≤ b ∧ b ≤ 122) (h : Word.new line = some w) :
    WFword w := by
  rw [word_new_def] at h
  by_cases hl : line.length = 5
  · rw [if_pos hl] at h
    by_cases hr : (line.foldl (fun (p : Nat × Nat) letter =>
        if p.1 &&& (1 <<< (letterOffset letter % 32)) = 0 then
          (p.1 ||| (1 <<< (letterOffset letter % 32)), p.2 + 1) else p)
        (0, 0)).2 = 5
    · rw [if_pos hr, Option.some_inj] at h
      subst h
      refine ⟨hl, hlc, ?_, ?_⟩
      · exact ((new_fold_count_iff line 0 0 hlc).mp (by rw [hr, hl])).1
      · exact new_fold_mask line 0 0
    · rw [if_neg hr] at h
      cases h
  · rw [if_neg hl] at h
    cases h

/- ------------------------------------------------------------------ -/
/- Deduplication.                                                     -/
/- ------------------------------------------------------------------ -/

theorem mem_dedup_from : ∀ (rest : List Word) (a x : Word),
    x ∈ dedup_from a rest → x = a ∨ x ∈ rest := by
  intro rest
  induction rest with
  | nil =>
    intro a x hx
    rw [List.mem_singleton.mp hx]
    exact Or.inl rfl
  | cons b rest ih =>
    intro a x hx
    unfold dedup_from at hx
    by_cases heq : a.bitword = b.bitword
    · rw [if_pos heq] at hx
      rcases ih a x hx with h | h
      · exact Or.inl h
      · exact Or.inr (by simp [h])
    · rw [if_neg heq] at hx
      rcases List.mem_cons.mp hx with rfl | hx'
      · exact Or.inl rfl
      · rcases ih b x hx' with h | h
        · exact Or.inr (by simp [h])
        · exact Or.inr (by simp [h])

theorem mem_dedup_by_key {l : List Word} {x : Word}
    (hx : x ∈ dedup_by_key l) : x ∈ l := by
  cases l with
  | nil => cases hx
  | cons a rest =>
    rcases mem_dedup_from rest a x hx with h | h
    · simp [h]
    · simp [h]

theorem dedup_from_pairwise_lt : ∀ (rest : List Word) (a : Word),
    (a :: rest).Pairwise (fun a b => a.bitword ≤ b.bitword) →
    (dedup_from a rest).Pairwise (fun a b => a.bitword < b.bitword) := by
  intro rest
  induction rest with
  | nil => intro a _; exact List.pairwise_singleton _ _
  | cons b rest ih =>
    intro a hp
    unfold dedup_from
    by_cases heq : a.bitword = b.bitword
    · rw [if_pos heq]
      apply ih
      rw [List.pairwise_cons] at hp ⊢
      exact ⟨fun x hx => hp.1 x (by simp [hx]), (List.pairwise_cons.mp hp.2).2⟩
    · rw [if_neg heq]
      rw [List.pairwise_cons]
      refine ⟨?_, ih b (List.pairwise_cons.mp hp).2⟩
      intro x hx
      have hab : a.bitword ≤ b.bitword := (List.pairwise_cons.mp hp).1 b (by simp)
      have halt : a.bitword < b.bitword := lt_of_le_of_ne hab heq
      rcases mem_dedup_from rest b x hx with rfl | hx'
      · exact halt
      · have hbx : b.bitword ≤ x.bitword :=
          (List.pairwise_cons.mp (List.pairwise_cons.mp hp).2).1 x hx'
        omega

theorem dedup_by_key_pairwise_lt {l : List Word}
    (hp : l.Pairwise (fun a b => a.bitword ≤ b.bitword)) :
    (dedup_by_key l).Pairwise (fun a b => a.bitword < b.bitword) := by
  cases l with
  | nil => exact List.Pairwise.nil
  | cons a rest => exact dedup_from_pairwise_lt rest a hp

theorem sortByMask_pairwise (ws : List Word) :
    (sortByMask ws).Pairwise (fun a b => a.bitword ≤ b.bitword) := by
  unfold sortByMask
  have := @List.sorted_mergeSort Word
    (fun a b : Word => decide (a.bitword ≤ b.bitword))
    (fun a b c hab hbc => by
      simp only [decide_eq_true_eq] at hab hbc ⊢; omega)
    (fun a b => by
      simp only [Bool.or_eq_true, decide_eq_true_eq]; omega)
    ws
  exact this.imp (fun h => by simpa using h)

/-- After sorting and dedup the surviving masks are pairwise distinct. -/
theorem dedupedOf_pairwise_lt (ws : List Word) :
    (dedupedOf ws).Pairwise (fun a b => a.bitword < b.bitword) :=
  dedup_by_key_pairwise_lt (sortByMask_pairwise ws)

theorem dedupedOf_pairwise_ne (ws : List Word) :
    (dedupedOf ws).Pairwise (fun a b => a.bitword ≠ b.bitword) :=
  (dedupedOf_pairwise_lt ws).imp (fun h => by omega)

theorem mem_dedupedOf {ws : List Word} {x : Word} (h : x ∈ dedupedOf ws) :
    x ∈ ws := by
  have h1 := mem_dedup_by_key h
  unfold sortByMask at h1
  exact (List.mergeSort_perm ws _).mem_iff.mp h1

/- ------------------------------------------------------------------ -/
/- The rarity transform.                                              -/
/- ------------------------------------------------------------------ -/

theorem indexOf_eq_of_getElem {L : List Nat} (hnd : L.Nodup) {j : Nat} {a : Nat}
    (hj : j < L.length) (h : L.get ⟨j, hj⟩ = a) : L.indexOf a = j := by
  subst h
  have := List.get_indexOf hnd ⟨j, hj⟩
  simpa using this

theorem indexOf_reverse {L : List Nat} (hnd : L.Nodup) {a : Nat} (ha : a ∈ L) :
    L.reverse.indexOf a = L.length - 1 - L.indexOf a := by
  have hj : L.indexOf a < L.length := List.indexOf_lt_length.mpr ha
  have hndr : L.reverse.Nodup := List.nodup_reverse.mpr hnd
  have hlen : L.length - 1 - L.indexOf a < L.reverse.length := by
    rw [List.length_reverse]
    omega
  apply indexOf_eq_of_getElem hndr hlen
  have hgr : L.reverse.get ⟨L.length - 1 - L.indexOf a, hlen⟩ =
      L.get ⟨L.length - 1 - (L.length - 1 - L.indexOf a), by omega⟩ := by
    rw [List.get_eq_getElem, List.get_eq_getElem, List.getElem_reverse]
  rw [hgr]
  have harith : L.length - 1 - (L.length - 1 - L.indexOf a) = L.indexOf a := by
    omega
  have hga := List.indexOf_get hj
  rw [show (⟨L.length - 1 - (L.length - 1 - L.indexOf a), by omega⟩ :
      Fin L.length) = ⟨L.indexOf a, hj⟩ from by
    apply Fin.ext
    simpa using harith]
  exact hga

theorem enum_eq_map_indexOf {L : List Nat} (hnd : L.Nodup) :
    L.enum = L.map (fun k => (L.indexOf k, k)) := by
  apply List.ext_getElem
  · rw [List.enum_length, List.length_map]
  · intro j h1 h2
    rw [List.getElem_enum, List.getElem_map]
    have hj : j < L.length := by
      rw [List.enum_length] at h1
      exact h1
    have : L.indexOf (L.get ⟨j, hj⟩) = j := by
      have := List.get_indexOf hnd ⟨j, hj⟩
      simpa using this
    simp only [List.get_eq_getElem] at this
    rw [this]

theorem freqs_length (ws : List Word) : (freqs ws).length = 26 := by
  unfold freqs
  have hinner : ∀ (bytes : List Nat) (f : List Nat),
      (bytes.foldl (fun f b =>
        f.set (letterOffset b) (f.getD (letterOffset b) 0 + 1)) f).length =
      f.length := by
    intro bytes
    induction bytes with
    | nil => intro f; rfl
    | cons b rest ih =>
      intro f
      rw [List.foldl_cons, ih, List.length_set]
  have houter : ∀ (l : List Word) (f : List Nat),
      (l.foldl (fun f w => w.bytes.foldl (fun f b =>
        f.set (letterOffset b) (f.getD (letterOffset b) 0 + 1)) f) f).length =
      f.length := by
    intro l
    induction l with
    | nil => intro f; rfl
    | cons w rest ih =>
      intro f
      rw [List.foldl_cons, ih, hinner]
  rw [houter, List.length_replicate]

/-- Two chosen entries of an enumeration, in index order, form a sublist. -/
theorem pair_sublist_enum (fs : List Nat) {i j : Nat} (hij : i < j)
    (hj : j < fs.length) :
    List.Sublist [(i, fs.get ⟨i, by omega⟩), (j, fs.get ⟨j, hj⟩)] fs.enum := by
  have hi : i < fs.length := by omega
  have hsplit : fs.enum = fs.enum.take (i + 1) ++ fs.enum.drop (i + 1) :=
    (List.take_append_drop _ _).symm
  rw [hsplit]
  have hlen : fs.enum.length = fs.length := List.enum_length
  rw [show [(i, fs.get ⟨i, by omega⟩), (j, fs.get ⟨j, hj⟩)] =
    [(i, fs.get ⟨i, by omega⟩)] ++ [(j, fs.get ⟨j, hj⟩)] from rfl]
  apply List.Sublist.append
  · rw [List.singleton_sublist]
    rw [List.mem_iff_getElem]
    refine ⟨i, by rw [List.length_take]; omega, ?_⟩
    rw [List.getElem_take, List.getElem_enum]
    rfl
  · rw [List.singleton_sublist]
    rw [List.mem_iff_getElem]
    refine ⟨j - (i + 1), by rw [List.length_drop]; omega, ?_⟩
    rw [List.getElem_drop, List.getElem_enum]
    have : i + 1 + (j - (i + 1)) = j := by omega
    simp only [this]
    rfl

/-- Sorting an enumeration of a permutation of `0..25` by value yields the
    pairs `(position, value)` in value order. -/
theorem sorted_enum_eq_map {L : List Nat} (hperm : L.Perm (List.range 26)) :
    L.enum.mergeSort (fun a b => decide (a.2 ≤ b.2)) =
      (List.range 26).map (fun k => (L.indexOf k, k)) := by
  have hnd : L.Nodup := hperm.symm.nodup (List.nodup_range 26)
  have htrans : ∀ a b c : Nat × Nat, (decide (a.2 ≤ b.2)) = true →
      (decide (b.2 ≤ c.2)) = true → (decide (a.2 ≤ c.2)) = true := by
    intro a b c h1 h2
    simp only [decide_eq_true_eq] at h1 h2 ⊢
    omega
  have htotal : ∀ a b : Nat × Nat,
      (decide (a.2 ≤ b.2) || decide (b.2 ≤ a.2)) = true := by
    intro a b
    simp only [Bool.or_eq_true, decide_eq_true_eq]
    omega
  haveI : IsAntisymm (Nat × Nat) (fun a b => a.2 < b.2) :=
    ⟨fun a b h1 h2 => absurd h1 (by omega)⟩
  apply List.eq_of_perm_of_sorted (r := fun a b : Nat × Nat => a.2 < b.2)
  · have h1 := List.mergeSort_perm L.enum (fun a b => decide (a.2 ≤ b.2))
    have h2 := enum_eq_map_indexOf hnd
    have h3 := hperm.map (fun k => (L.indexOf k, k))
    rw [← h2] at h3
    exact h1.trans h3
  · have hsle := List.sorted_mergeSort htrans htotal L.enum
    have hpermsnd : (List.map Prod.snd
        (L.enum.mergeSort (fun a b => decide (a.2 ≤ b.2)))).Perm L := by
      have := (List.mergeSort_perm L.enum
        (fun a b => decide (a.2 ≤ b.2))).map Prod.snd
      rw [List.enum_map_snd] at this
      exact this
    have hsndnd : (List.map Prod.snd
        (L.enum.mergeSort (fun a b => decide (a.2 ≤ b.2)))).Nodup :=
      hpermsnd.symm.nodup hnd
    have hne := List.pairwise_map.mp hsndnd
    exact ((hsle.and hne).imp (fun h =>
      lt_of_le_of_ne (by simpa using h.1) h.2))
  · exact List.pairwise_map.mpr (by simpa using List.pairwise_lt_range 26)

/-- The letter list of the rarity transform is a permutation of `0..25`. -/
theorem letters_perm (ws : List Word) :
    ((((freqs ws).enum.mergeSort (fun a b => decide (a.2 ≤ b.2))).reverse.map
      Prod.fst).Perm (List.range 26)) := by
  rw [List.map_reverse]
  refine (List.reverse_perm _).trans ?_
  have h1 := (List.mergeSort_perm (freqs ws).enum
    (fun a b => decide (a.2 ≤ b.2))).map Prod.fst
  rw [List.enum_map_fst, freqs_length] at h1
  exact h1

/-- The transform table lists, for each letter, its position in the
    most-frequent-first letter order. -/
theorem transformOf_eq_map (ws : List Word) :
    transformOf ws = (List.range 26).map (fun k =>
      ((((freqs ws).enum.mergeSort (fun a b => decide (a.2 ≤ b.2))).reverse.map
        Prod.fst).indexOf k)) := by
  have hdef : transformOf ws =
      ((((freqs ws).enum.mergeSort (fun a b => decide (a.2 ≤ b.2))).reverse.map
        Prod.fst).enum.mergeSort (fun a b => decide (a.2 ≤ b.2))).map
        Prod.fst := rfl
  rw [hdef, sorted_enum_eq_map (letters_perm ws), List.map_map]
  rfl

theorem transformOf_length (ws : List Word) : (transformOf ws).length = 26 := by
  rw [transformOf_eq_map, List.length_map, List.length_range]

theorem transformOf_getD {ws : List Word} {k : Nat} (hk : k < 26) :
    (transformOf ws).getD k 0 =
      ((((freqs ws).enum.mergeSort (fun a b => decide (a.2 ≤ b.2))).reverse.map
        Prod.fst).indexOf k) := by
  rw [transformOf_eq_map]
  rw [List.getD_eq_getElem _ _ (by rw [List.length_map, List.length_range]; exact hk)]
  rw [List.getElem_map]
  congr 1
  exact List.getElem_range _ _

/-- Position and content of letter `i` inside the frequency-sorted pair
    list. -/
theorem byFreq_q_spec (ws : List Word) {i : Nat} (hi : i < 26) :
    ((((freqs ws).enum.mergeSort (fun a b => decide (a.2 ≤ b.2))).map
      Prod.fst).indexOf i < 26) ∧
    ((freqs ws).enum.mergeSort (fun a b => decide (a.2 ≤ b.2))).getD
      ((((freqs ws).enum.mergeSort (fun a b => decide (a.2 ≤ b.2))).map
        Prod.fst).indexOf i) (0, 0) = (i, (freqs ws).getD i 0) := by
  have hMperm : (((freqs ws).enum.mergeSort
      (fun a b => decide (a.2 ≤ b.2))).map Prod.fst).Perm (List.range 26) := by
    have h1 := (List.mergeSort_perm (freqs ws).enum
      (fun a b => decide (a.2 ≤ b.2))).map Prod.fst
    rw [List.enum_map_fst, freqs_length] at h1
    exact h1
  have hMlen : (((freqs ws).enum.mergeSort
      (fun a b => decide (a.2 ≤ b.2))).map Prod.fst).length = 26 := by
    rw [hMperm.length_eq, List.length_range]
  have hSlen : ((freqs ws).enum.mergeSort
      (fun a b => decide (a.2 ≤ b.2))).length = 26 := by
    rw [← hMlen, List.length_map]
  have hmemM : i ∈ ((freqs ws).enum.mergeSort
      (fun a b => decide (a.2 ≤ b.2))).map Prod.fst :=
    hMperm.mem_iff.mpr (List.mem_range.mpr hi)
  have hq : (((freqs ws).enum.mergeSort
      (fun a b => decide (a.2 ≤ b.2))).map Prod.fst).indexOf i < 26 := by
    rw [← hMlen]
    exact List.indexOf_lt_length.mpr hmemM
  refine ⟨hq, ?_⟩
  have hqS : (((freqs ws).enum.mergeSort
      (fun a b => decide (a.2 ≤ b.2))).map Prod.fst).indexOf i <
      ((freqs ws).enum.mergeSort (fun a b => decide (a.2 ≤ b.2))).length := by
    omega
  rw [List.getD_eq_getElem _ _ hqS]
  have hfst : ((((freqs ws).enum.mergeSort
      (fun a b => decide (a.2 ≤ b.2))).get ⟨(((freqs ws).enum.mergeSort
        (fun a b => decide (a.2 ≤ b.2))).map Prod.fst).indexOf i, hqS⟩).1) = i := by
    have hgm := List.indexOf_get (a := i)
      (l := ((freqs ws).enum.mergeSort (fun a b => decide (a.2 ≤ b.2))).map
        Prod.fst) (by rw [hMlen]; exact hq)
    simp only [List.get_eq_getElem, List.getElem_map] at hgm
    simp only [List.get_eq_getElem]
    exact hgm
  have hmemS : (((freqs ws).enum.mergeSort
      (fun a b => decide (a.2 ≤ b.2))).get ⟨(((freqs ws).enum.mergeSort
        (fun a b => decide (a.2 ≤ b.2))).map Prod.fst).indexOf i, hqS⟩) ∈
      (freqs ws).enum := by
    apply (List.mergeSort_perm (freqs ws).enum
      (fun a b => decide (a.2 ≤ b.2))).mem_iff.mp
    exact List.get_mem _ _ _
  have hpair : (((((freqs ws).enum.mergeSort
      (fun a b => decide (a.2 ≤ b.2))).get ⟨(((freqs ws).enum.mergeSort
        (fun a b => decide (a.2 ≤ b.2))).map Prod.fst).indexOf i, hqS⟩).1),
      ((((freqs ws).enum.mergeSort
      (fun a b => decide (a.2 ≤ b.2))).get ⟨(((freqs ws).enum.mergeSort
        (fun a b => decide (a.2 ≤ b.2))).map Prod.fst).indexOf i, hqS⟩).2)) ∈
      (freqs ws).enum := by
    rw [Prod.mk.eta]
    exact hmemS
  obtain ⟨hlt2, hsnd⟩ := List.mem_enum hpair
  simp only [List.get_eq_getElem] at hfst hsnd
  apply Prod.ext
  · simpa using hfst
  · simp only
    rw [hsnd, List.getD_eq_getElem _ _ (by rw [freqs_length]; exact hi)]
    congr 1

/-- The letter components of the frequency-sorted pair list are a
    permutation of `0..25`. -/
theorem byFreq_fst_perm (ws : List Word) :
    ((((freqs ws).enum.mergeSort (fun a b => decide (a.2 ≤ b.2))).map
      Prod.fst).Perm (List.range 26)) := by
  have h1 := (List.mergeSort_perm (freqs ws).enum
    (fun a b => decide (a.2 ≤ b.2))).map Prod.fst
  rw [List.enum_map_fst, freqs_length] at h1
  exact h1

theorem byFreq_fst_nodup (ws : List Word) :
    ((((freqs ws).enum.mergeSort (fun a b => decide (a.2 ≤ b.2))).map
      Prod.fst).Nodup) :=
  (byFreq_fst_perm ws).symm.nodup (List.nodup_range 26)

theorem byFreq_length (ws : List Word) :
    ((freqs ws).enum.mergeSort (fun a b => decide (a.2 ≤ b.2))).length = 26 := by
  have h := (byFreq_fst_perm ws).length_eq
  rw [List.length_map, List.length_range] at h
  exact h

/-- The frequency-sorted pair list is sorted by its second component. -/
theorem byFreq_sorted_le (ws : List Word) {p q : Nat} (hpq : p < q)
    (hq : q < ((freqs ws).enum.mergeSort (fun a b => decide (a.2 ≤ b.2))).length) :
    ((((freqs ws).enum.mergeSort (fun a b => decide (a.2 ≤ b.2))).get
      ⟨p, by omega⟩).2) ≤
    ((((freqs ws).enum.mergeSort (fun a b => decide (a.2 ≤ b.2))).get
      ⟨q, hq⟩).2) := by
  have htrans : ∀ a b c : Nat × Nat, (decide (a.2 ≤ b.2)) = true →
      (decide (b.2 ≤ c.2)) = true → (decide (a.2 ≤ c.2)) = true := by
    intro a b c h1 h2
    simp only [decide_eq_true_eq] at h1 h2 ⊢
    omega
  have htotal : ∀ a b : Nat × Nat,
      (decide (a.2 ≤ b.2) || decide (b.2 ≤ a.2)) = true := by
    intro a b
    simp only [Bool.or_eq_true, decide_eq_true_eq]
    omega
  have hs := List.sorted_mergeSort htrans htotal (freqs ws).enum
  rw [List.pairwise_iff_getElem] at hs
  have h := hs p q (by omega) hq hpq
  simpa using h

/-- A strictly less frequent letter sits strictly earlier in the
    frequency-sorted pair list. -/
theorem byFreq_q_mono (ws : List Word) {i j : Nat} (hi : i < 26) (hj : j < 26)
    (hlt : (freqs ws).getD i 0 < (freqs ws).getD j 0) :
    ((((freqs ws).enum.mergeSort (fun a b => decide (a.2 ≤ b.2))).map
      Prod.fst).indexOf i) <
    ((((freqs ws).enum.mergeSort (fun a b => decide (a.2 ≤ b.2))).map
      Prod.fst).indexOf j) := by
  obtain ⟨hqi, hgi⟩ := byFreq_q_spec ws hi
  obtain ⟨hqj, hgj⟩ := byFreq_q_spec ws hj
  have hlen := byFreq_length ws
  rcases Nat.lt_trichotomy
    ((((freqs ws).enum.mergeSort (fun a b => decide (a.2 ≤ b.2))).map
      Prod.fst).indexOf i)
    ((((freqs ws).enum.mergeSort (fun a b => decide (a.2 ≤ b.2))).map
      Prod.fst).indexOf j) with h | h | h
  · exact h
  · exfalso
    rw [h] at hgi
    rw [hgi] at hgj
    have h2 := congrArg Prod.snd hgj
    simp only at h2
    omega
  · exfalso
    have hle := byFreq_sorted_le ws h (by omega)
    rw [List.getD_eq_getElem _ _ (by omega : (_ : Nat) < _)] at hgi hgj
    simp only [List.get_eq_getElem] at hle
    rw [hgi, hgj] at hle
    simp only at hle
    omega

/-- Equal frequencies: the stable sort keeps the smaller letter strictly
    earlier in the frequency-sorted pair list. -/
theorem byFreq_q_tie (ws : List Word) {i j : Nat} (hij : i < j) (hj : j < 26)
    (heq : (freqs ws).getD i 0 = (freqs ws).getD j 0) :
    ((((freqs ws).enum.mergeSort (fun a b => decide (a.2 ≤ b.2))).map
      Prod.fst).indexOf i) <
    ((((freqs ws).enum.mergeSort (fun a b => decide (a.2 ≤ b.2))).map
      Prod.fst).indexOf j) := by
  have hi : i < 26 := by omega
  have hfs : (freqs ws).length = 26 := freqs_length ws
  have hii : i < (freqs ws).length := by omega
  have hjj : j < (freqs ws).length := by omega
  have htrans : ∀ a b c : Nat × Nat, (decide (a.2 ≤ b.2)) = true →
      (decide (b.2 ≤ c.2)) = true → (decide (a.2 ≤ c.2)) = true := by
    intro a b c h1 h2
    simp only [decide_eq_true_eq] at h1 h2 ⊢
    omega
  have htotal : ∀ a b : Nat × Nat,
      (decide (a.2 ≤ b.2) || decide (b.2 ≤ a.2)) = true := by
    intro a b
    simp only [Bool.or_eq_true, decide_eq_true_eq]
    omega
  have hsub := pair_sublist_enum (freqs ws) hij hjj
  have hpw : List.Pairwise (fun a b : Nat × Nat => (decide (a.2 ≤ b.2)) = true)
      [(i, (freqs ws).get ⟨i, hii⟩), (j, (freqs ws).get ⟨j, hjj⟩)] := by
    rw [List.pairwise_pair]
    simp only [decide_eq_true_eq]
    have h1 : (freqs ws).get ⟨i, hii⟩ = (freqs ws).getD i 0 := by
      rw [List.getD_eq_getElem _ _ hii]
      rfl
    have h2 : (freqs ws).get ⟨j, hjj⟩ = (freqs ws).getD j 0 := by
      rw [List.getD_eq_getElem _ _ hjj]
      rfl
    rw [h1, h2, heq]
  have hsort := List.sublist_mergeSort htrans htotal hpw hsub
  rw [List.cons_sublist_iff] at hsort
  obtain ⟨r₁, r₂, hsplit, hmem1, hsub2⟩ := hsort
  have hmem2 : (j, (freqs ws).get ⟨j, hjj⟩) ∈ r₂ := List.singleton_sublist.mp hsub2
  obtain ⟨p, hp, hr1p⟩ := List.mem_iff_getElem.mp hmem1
  obtain ⟨m, hm, hr2m⟩ := List.mem_iff_getElem.mp hmem2
  have hSlen : ((freqs ws).enum.mergeSort (fun a b => decide (a.2 ≤ b.2))).length
      = r₁.length + r₂.length := by
    rw [hsplit, List.length_append]
  have hpS : p < ((freqs ws).enum.mergeSort
      (fun a b => decide (a.2 ≤ b.2))).length := by omega
  have hqS : r₁.length + m < ((freqs ws).enum.mergeSort
      (fun a b => decide (a.2 ≤ b.2))).length := by omega
  have hgetp : (((freqs ws).enum.mergeSort (fun a b => decide (a.2 ≤ b.2))).get
      ⟨p, hpS⟩) = (i, (freqs ws).get ⟨i, hii⟩) := by
    simp only [List.get_eq_getElem, hsplit]
    rw [List.getElem_append_left hp]
    exact hr1p
  have hgetq : (((freqs ws).enum.mergeSort (fun a b => decide (a.2 ≤ b.2))).get
      ⟨r₁.length + m, hqS⟩) = (j, (freqs ws).get ⟨j, hjj⟩) := by
    simp only [List.get_eq_getElem, hsplit]
    rw [List.getElem_append_right (by omega : r₁.length ≤ r₁.length + m)]
    simp only [Nat.add_sub_cancel_left]
    exact hr2m
  have hMnd := byFreq_fst_nodup ws
  simp only [List.get_eq_getElem] at hgetp hgetq
  have hMp : p < ((((freqs ws).enum.mergeSort
      (fun a b => decide (a.2 ≤ b.2))).map Prod.fst)).length := by
    rw [List.length_map]
    omega
  have hMq : r₁.length + m < ((((freqs ws).enum.mergeSort
      (fun a b => decide (a.2 ≤ b.2))).map Prod.fst)).length := by
    rw [List.length_map]
    omega
  have hMi : ((((freqs ws).enum.mergeSort
      (fun a b => decide (a.2 ≤ b.2))).map Prod.fst)).get ⟨p, hMp⟩ = i := by
    simp only [List.get_eq_getElem, List.getElem_map]
    rw [hgetp]
  have hMj : ((((freqs ws).enum.mergeSort
      (fun a b => decide (a.2 ≤ b.2))).map Prod.fst)).get
      ⟨r₁.length + m, hMq⟩ = j := by
    simp only [List.get_eq_getElem, List.getElem_map]
    rw [hgetq]
  have hqi := indexOf_eq_of_getElem hMnd hMp hMi
  have hqj := indexOf_eq_of_getElem hMnd hMq hMj
  rw [hqi, hqj]
  omega

/-- The rank of letter `k` is `25` minus its position in the
    frequency-sorted order. -/
theorem transformOf_rank (ws : List Word) {k : Nat} (hk : k < 26) :
    (transformOf ws).getD k 0 =
      25 - ((((freqs ws).enum.mergeSort (fun a b => decide (a.2 ≤ b.2))).map
        Prod.fst).indexOf k) := by
  rw [transformOf_getD hk]
  rw [List.map_reverse]
  have hMnd := byFreq_fst_nodup ws
  have hMperm := byFreq_fst_perm ws
  have hMlen : ((((freqs ws).enum.mergeSort
      (fun a b => decide (a.2 ≤ b.2))).map Prod.fst)).length = 26 := by
    rw [hMperm.length_eq, List.length_range]
  have hkm : k ∈ (((freqs ws).enum.mergeSort
      (fun a b => decide (a.2 ≤ b.2))).map Prod.fst) :=
    hMperm.mem_iff.mpr (List.mem_range.mpr hk)
  rw [indexOf_reverse hMnd hkm, hMlen]

/-- The rarity transform is a permutation of `0..25`. -/
theorem transformOf_perm (ws : List Word) :
    (transformOf ws).Perm (List.range 26) := by
  have hMrperm := letters_perm ws
  have hMrnd : ((((freqs ws).enum.mergeSort
      (fun a b => decide (a.2 ≤ b.2))).reverse.map Prod.fst)).Nodup :=
    hMrperm.symm.nodup (List.nodup_range 26)
  have hMrlen : ((((freqs ws).enum.mergeSort
      (fun a b => decide (a.2 ≤ b.2))).reverse.map Prod.fst)).length = 26 := by
    rw [hMrperm.length_eq, List.length_range]
  rw [transformOf_eq_map]
  have hnodup : ((List.range 26).map (fun k =>
      ((((freqs ws).enum.mergeSort (fun a b => decide (a.2 ≤ b.2))).reverse.map
        Prod.fst).indexOf k))).Nodup := by
    apply List.Nodup.map_on ?_ (List.nodup_range 26)
    intro x hx y hy hxy
    have hxm : x ∈ (((freqs ws).enum.mergeSort
        (fun a b => decide (a.2 ≤ b.2))).reverse.map Prod.fst) :=
      hMrperm.mem_iff.mpr hx
    have hym : y ∈ (((freqs ws).enum.mergeSort
        (fun a b => decide (a.2 ≤ b.2))).reverse.map Prod.fst) :=
      hMrperm.mem_iff.mpr hy
    have hbx := List.indexOf_lt_length.mpr hxm
    have hby := List.indexOf_lt_length.mpr hym
    have h1 := List.indexOf_get (a := x) hbx
    have h2 := List.indexOf_get (a := y) hby
    rw [← h1, ← h2]
    congr 1
    exact Fin.ext hxy
  have hsubset : ((List.range 26).map (fun k =>
      ((((freqs ws).enum.mergeSort (fun a b => decide (a.2 ≤ b.2))).reverse.map
        Prod.fst).indexOf k))) ⊆ List.range 26 := by
    intro a ha
    rw [List.mem_map] at ha
    obtain ⟨k, hk, hka⟩ := ha
    rw [List.mem_range]
    have hkm : k ∈ (((freqs ws).enum.mergeSort
        (fun a b => decide (a.2 ≤ b.2))).reverse.map Prod.fst) :=
      hMrperm.mem_iff.mpr hk
    have hlt := List.indexOf_lt_length.mpr hkm
    rw [hMrlen] at hlt
    omega
  have hsp := List.subperm_of_subset hnodup hsubset
  apply hsp.perm_of_length_le
  rw [List.length_range, List.length_map, List.length_range]

theorem transformOf_nodup (ws : List Word) : (transformOf ws).Nodup :=
  (transformOf_perm ws).symm.nodup (List.nodup_range 26)

theorem transformOf_mem_lt {ws : List Word} {x : Nat} (h : x ∈ transformOf ws) :
    x < 26 :=
  List.mem_range.mp ((transformOf_perm ws).mem_iff.mp h)

/-- Strictly rarer letters receive strictly larger rank values. -/
theorem transformOf_mono (ws : List Word) {i j : Nat} (hi : i < 26) (hj : j < 26)
    (hlt : (freqs ws).getD i 0 < (freqs ws).getD j 0) :
    (transformOf ws).getD j 0 < (transformOf ws).getD i 0 := by
  rw [transformOf_rank ws hi, transformOf_rank ws hj]
  have h1 := byFreq_q_mono ws hi hj hlt
  have h2 := (byFreq_q_spec ws hj).1
  omega

/-- Equal frequencies are ranked by letter: the smaller letter gets the
    strictly larger rank value. -/
theorem transformOf_tie (ws : List Word) {i j : Nat} (hij : i < j) (hj : j < 26)
    (heq : (freqs ws).getD i 0 = (freqs ws).getD j 0) :
    (transformOf ws).getD j 0 < (transformOf ws).getD i 0 := by
  have hi : i < 26 := by omega
  rw [transformOf_rank ws hi, transformOf_rank ws hj]
  have h1 := byFreq_q_tie ws hij hj heq
  have h2 := (byFreq_q_spec ws hj).1
  omega

/-- A strictly least frequent letter receives rank `25`. -/
theorem transformOf_min (ws : List Word) {i : Nat} (hi : i < 26)
    (hmin : ∀ j, j < 26 → j ≠ i → (freqs ws).getD i 0 < (freqs ws).getD j 0) :
    (transformOf ws).getD i 0 = 25 := by
  have hperm := transformOf_perm ws
  have h25 : (25 : Nat) ∈ transformOf ws := hperm.mem_iff.mpr (by decide)
  obtain ⟨k, hk, hget⟩ := List.mem_iff_getElem.mp h25
  have hlen := transformOf_length ws
  have hk26 : k < 26 := by omega
  have hgd : (transformOf ws).getD k 0 = 25 := by
    rw [List.getD_eq_getElem _ _ hk]
    exact hget
  by_cases hki : k = i
  · rw [← hki]
    exact hgd
  · exfalso
    have hmono := transformOf_mono ws hi hk26 (hmin k hk26 hki)
    have hle : (transformOf ws).getD i 0 ≤ 25 := by
      rw [transformOf_rank ws hi]
      omega
    omega

/-- A strictly most frequent letter receives rank `0`. -/
theorem transformOf_max (ws : List Word) {i : Nat} (hi : i < 26)
    (hmax : ∀ j, j < 26 → j ≠ i → (freqs ws).getD j 0 < (freqs ws).getD i 0) :
    (transformOf ws).getD i 0 = 0 := by
  have hperm := transformOf_perm ws
  have h0 : (0 : Nat) ∈ transformOf ws := hperm.mem_iff.mpr (by decide)
  obtain ⟨k, hk, hget⟩ := List.mem_iff_getElem.mp h0
  have hlen := transformOf_length ws
  have hk26 : k < 26 := by omega
  have hgd : (transformOf ws).getD k 0 = 0 := by
    rw [List.getD_eq_getElem _ _ hk]
    exact hget
  by_cases hki : k = i
  · rw [← hki]
    exact hgd
  · exfalso
    have hmono := transformOf_mono ws hk26 hi (hmax k hk26 hki)
    omega

/- ------------------------------------------------------------------ -/
/- Word::transform and the bucket indexer.                            -/
/- ------------------------------------------------------------------ -/

theorem letterOffset_eq_sub {b : Nat} (h1 : 97 ≤ b) (h2 : b ≤ 122) :
    letterOffset b = b - 97 := by
  unfold letterOffset
  omega

/-- Bits of an or-accumulation are the start bits plus the shifted-in
    positions. -/
theorem orfold_testBit :
    ∀ (os : List Nat) (m b : Nat),
      (os.foldl (fun acc o => acc ||| (1 <<< o)) m).testBit b =
        (m.testBit b || decide (b ∈ os)) := by
  intro os
  induction os with
  | nil =>
    intro m b
    simp
  | cons o rest ih =>
    intro m b
    rw [List.foldl_cons, ih]
    rw [Nat.testBit_or, Nat.shiftLeft_eq, one_mul, Nat.testBit_two_pow]
    by_cases hob : o = b
    · subst hob
      simp [List.mem_cons]
    · have hbo : ¬ (b = o) := fun hc => hob hc.symm
      simp [List.mem_cons, hob, hbo]

/-- An or-accumulation of low bits stays below the power bound. -/
theorem orfold_lt_pow :
    ∀ (os : List Nat) (m l : Nat), m < 2 ^ (l + 1) → (∀ o ∈ os, o ≤ l) →
      os.foldl (fun acc o => acc ||| (1 <<< o)) m < 2 ^ (l + 1) := by
  intro os
  induction os with
  | nil =>
    intro m l hm _
    exact hm
  | cons o rest ih =>
    intro m l hm hos
    rw [List.foldl_cons]
    apply ih _ _ ?_ (fun x hx => hos x (by simp [hx]))
    apply Nat.or_lt_two_pow hm
    rw [Nat.shiftLeft_eq, one_mul]
    exact Nat.pow_lt_pow_right (by omega)
      (by have := hos o (by simp); omega)

/-- The max-accumulation bounds the seed and every element. -/
theorem maxfold_le :
    ∀ (os : List Nat) (a : Nat),
      a ≤ os.foldl max a ∧ ∀ o ∈ os, o ≤ os.foldl max a := by
  intro os
  induction os with
  | nil =>
    intro a
    exact ⟨Nat.le_refl a, by simp⟩
  | cons o rest ih =>
    intro a
    rw [List.foldl_cons]
    obtain ⟨h1, h2⟩ := ih (max a o)
    refine ⟨le_trans (Nat.le_max_left a o) h1, ?_⟩
    intro x hx
    rcases List.mem_cons.mp hx with rfl | hx'
    · exact le_trans (Nat.le_max_right a x) h1
    · exact h2 x hx'

/-- The max-accumulation is the seed or one of the elements. -/
theorem maxfold_mem :
    ∀ (os : List Nat) (a : Nat),
      os.foldl max a = a ∨ os.foldl max a ∈ os := by
  intro os
  induction os with
  | nil =>
    intro a
    exact Or.inl rfl
  | cons o rest ih =>
    intro a
    rw [List.foldl_cons]
    rcases ih (max a o) with h | h
    · rcases Nat.le_total a o with hao | hao
      · refine Or.inr ?_
        rw [Nat.max_eq_right hao] at h ⊢
        rw [h]
        exact List.mem_cons_self o rest
      · refine Or.inl ?_
        rw [Nat.max_eq_left hao] at h ⊢
        exact h
    · exact Or.inr (by simp [h])

/-- The max of at least two distinct naturals with seed 0 is attained. -/
theorem maxfold_zero_mem {os : List Nat} (hnd : os.Nodup)
    (hlen : 2 ≤ os.length) : os.foldl max 0 ∈ os := by
  rcases maxfold_mem os 0 with h | h
  · exfalso
    have h0 : os.get ⟨0, by omega⟩ ∈ os := List.get_mem os 0 (by omega)
    have h1 : os.get ⟨1, by omega⟩ ∈ os := List.get_mem os 1 (by omega)
    have hle0 := (maxfold_le os 0).2 _ h0
    have hle1 := (maxfold_le os 0).2 _ h1
    rw [h] at hle0 hle1
    have he : os.get ⟨0, by omega⟩ = os.get ⟨1, by omega⟩ := by omega
    simp only [List.get_eq_getElem] at he
    have := (hnd.getElem_inj_iff).mp he
    omega
  · exact h

/-- Definitional unfolding of `Word.transform` with the let bindings
    inlined. -/
theorem word_transform_def (w : Word) (t : List Nat) :
    w.transform t =
      ((w.bytes.foldl (fun (p : Nat × Nat) letter =>
        (max p.1 (t.getD (letterOffset letter) 0),
         p.2 ||| (1 <<< ((t.getD (letterOffset letter) 0) % 32)))) (0, 0)).1,
       { w with bitword := (w.bytes.foldl (fun (p : Nat × Nat) letter =>
        (max p.1 (t.getD (letterOffset letter) 0),
         p.2 ||| (1 <<< ((t.getD (letterOffset letter) 0) % 32)))) (0, 0)).2 }) :=
  rfl

/-- The transform fold computes its two components independently. -/
theorem transform_fold_split (t : List Nat) :
    ∀ (bytes : List Nat) (a m : Nat),
      bytes.foldl (fun (p : Nat × Nat) letter =>
        (max p.1 (t.getD (letterOffset letter) 0),
         p.2 ||| (1 <<< ((t.getD (letterOffset letter) 0) % 32)))) (a, m) =
      (bytes.foldl (fun acc letter => max acc (t.getD (letterOffset letter) 0)) a,
       bytes.foldl (fun acc letter =>
         acc ||| (1 <<< ((t.getD (letterOffset letter) 0) % 32))) m) := by
  intro bytes
  induction bytes with
  | nil =>
    intro a m
    rfl
  | cons b rest ih =>
    intro a m
    simp only [List.foldl_cons]
    exact ih _ _

theorem transformOf_getD_lt (ws : List Word) {k : Nat} (hk : k < 26) :
    (transformOf ws).getD k 0 < 26 := by
  have hlen := transformOf_length ws
  rw [List.getD_eq_getElem _ _ (by omega)]
  exact transformOf_mem_lt (List.getElem_mem _)

theorem transformOf_getD_inj (ws : List Word) {k1 k2 : Nat} (h1 : k1 < 26)
    (h2 : k2 < 26)
    (h : (transformOf ws).getD k1 0 = (transformOf ws).getD k2 0) :
    k1 = k2 := by
  rw [transformOf_rank ws h1, transformOf_rank ws h2] at h
  have hq1 := (byFreq_q_spec ws h1).1
  have hq2 := (byFreq_q_spec ws h2).1
  have heq : ((((freqs ws).enum.mergeSort (fun a b => decide (a.2 ≤ b.2))).map
      Prod.fst).indexOf k1) =
      ((((freqs ws).enum.mergeSort (fun a b => decide (a.2 ≤ b.2))).map
        Prod.fst).indexOf k2) := by omega
  have h1m : k1 ∈ (((freqs ws).enum.mergeSort
      (fun a b => decide (a.2 ≤ b.2))).map Prod.fst) :=
    (byFreq_fst_perm ws).mem_iff.mpr (List.mem_range.mpr h1)
  have h2m : k2 ∈ (((freqs ws).enum.mergeSort
      (fun a b => decide (a.2 ≤ b.2))).map Prod.fst) :=
    (byFreq_fst_perm ws).mem_iff.mpr (List.mem_range.mpr h2)
  have e1 := List.indexOf_get (a := k1) (List.indexOf_lt_length.mpr h1m)
  have e2 := List.indexOf_get (a := k2) (List.indexOf_lt_length.mpr h2m)
  rw [← e1, ← e2]
  congr 1
  exact Fin.ext heq

theorem transform_fst (w : Word) (t : List Nat) :
    (w.transform t).1 =
      w.bytes.foldl (fun acc letter =>
        max acc (t.getD (letterOffset letter) 0)) 0 := by
  rw [word_transform_def, transform_fold_split]

theorem transform_snd_bitword (w : Word) (t : List Nat) :
    (w.transform t).2.bitword =
      w.bytes.foldl (fun acc letter =>
        acc ||| (1 <<< ((t.getD (letterOffset letter) 0) % 32))) 0 := by
  rw [word_transform_def, transform_fold_split]

theorem transform_bytes (w : Word) (t : List Nat) :
    (w.transform t).2.bytes = w.bytes := rfl

/-- On lowercase bytes the remapped mask is the or of the rank bits. -/
theorem transform_mask_eq {ws : List Word} {w : Word} (hwf : WFword w) :
    (w.transform (transformOf ws)).2.bitword =
      (w.bytes.map (fun x => (transformOf ws).getD (letterOffset x) 0)).foldl
        (fun acc o => acc ||| (1 <<< o)) 0 := by
  rw [transform_snd_bitword]
  rw [← List.foldl_map
    (fun x => ((transformOf ws).getD (letterOffset x) 0) % 32)
    (fun acc o => acc ||| (1 <<< o))]
  congr 1
  apply List.map_congr_left
  intro x hx
  have hlc := hwf.2.1 x hx
  have hoff : letterOffset x < 26 := by
    rw [letterOffset_eq_sub hlc.1 hlc.2]
    omega
  exact Nat.mod_eq_of_lt (by have := transformOf_getD_lt ws hoff; omega)

/-- The reported msl is the max of the rank list. -/
theorem transform_msl_eq (ws : List Word) (w : Word) :
    (w.transform (transformOf ws)).1 =
      (w.bytes.map (fun x => (transformOf ws).getD (letterOffset x) 0)).foldl
        max 0 := by
  rw [transform_fst, List.foldl_map]

/-- Counting membership of a short nodup list over `0..25`. -/
theorem countP_mem_range {os : List Nat} (hnd : os.Nodup)
    (hlt : ∀ o ∈ os, o < 26) :
    (List.range 26).countP (fun b => decide (b ∈ os)) = os.length := by
  rw [List.countP_eq_length_filter]
  have hperm : ((List.range 26).filter (fun b => decide (b ∈ os))).Perm os := by
    apply List.perm_of_nodup_nodup_toFinset_eq
      ((List.nodup_range 26).filter _) hnd
    ext x
    simp only [List.mem_toFinset, List.mem_filter, List.mem_range,
      decide_eq_true_eq]
    constructor
    · rintro ⟨_, hx⟩
      exact hx
    · intro hx
      exact ⟨hlt x hx, hx⟩
  exact hperm.length_eq

/-- The rank list of a well-formed word: 5 pairwise distinct ranks below 26. -/
theorem rank_list_facts {ws : List Word} {w : Word} (hwf : WFword w) :
    (w.bytes.map (fun x => (transformOf ws).getD (letterOffset x) 0)).length = 5 ∧
    (∀ o ∈ w.bytes.map (fun x => (transformOf ws).getD (letterOffset x) 0),
      o < 26) ∧
    (w.bytes.map (fun x => (transformOf ws).getD (letterOffset x) 0)).Nodup := by
  refine ⟨by rw [List.length_map]; exact hwf.1, ?_, ?_⟩
  · intro o ho
    rw [List.mem_map] at ho
    obtain ⟨x, hx, rfl⟩ := ho
    have hlc := hwf.2.1 x hx
    have hoff : letterOffset x < 26 := by
      rw [letterOffset_eq_sub hlc.1 hlc.2]
      omega
    exact transformOf_getD_lt ws hoff
  · apply List.Nodup.map_on ?_ hwf.2.2.1
    intro x hx y hy hxy
    have hlcx := hwf.2.1 x hx
    have hlcy := hwf.2.1 y hy
    have hoffx : letterOffset x < 26 := by
      rw [letterOffset_eq_sub hlcx.1 hlcx.2]
      omega
    have hoffy : letterOffset y < 26 := by
      rw [letterOffset_eq_sub hlcy.1 hlcy.2]
      omega
    have heq := transformOf_getD_inj ws hoffx hoffy hxy
    rw [letterOffset_eq_sub hlcx.1 hlcx.2,
      letterOffset_eq_sub hlcy.1 hlcy.2] at heq
    omega

/-- The transform of a well-formed word: 5 set bits, top bit at the reported
    msl, nothing above it, msl below 26. -/
theorem transform_wf {ws : List Word} {w : Word} (hwf : WFword w) :
    pc (w.transform (transformOf ws)).2.bitword = 5 ∧
    ((w.transform (transformOf ws)).2.bitword.testBit
      (w.transform (transformOf ws)).1 = true) ∧
    (w.transform (transformOf ws)).2.bitword <
      2 ^ ((w.transform (transformOf ws)).1 + 1) ∧
    (w.transform (transformOf ws)).1 < 26 := by
  obtain ⟨hlen5, hlt, hnd⟩ := @rank_list_facts ws w hwf
  have hmem : (w.bytes.map
      (fun x => (transformOf ws).getD (letterOffset x) 0)).foldl max 0 ∈
      (w.bytes.map (fun x => (transformOf ws).getD (letterOffset x) 0)) :=
    maxfold_zero_mem hnd (by omega)
  have htb : ∀ b : Nat, ((w.transform (transformOf ws)).2.bitword.testBit b) =
      decide (b ∈ w.bytes.map
        (fun x => (transformOf ws).getD (letterOffset x) 0)) := by
    intro b
    rw [transform_mask_eq hwf, orfold_testBit, Nat.zero_testBit, Bool.false_or]
  refine ⟨?_, ?_, ?_, ?_⟩
  · unfold pc
    rw [List.countP_congr (fun b _ => by rw [htb b]), countP_mem_range hnd hlt,
      hlen5]
  · rw [htb, transform_msl_eq]
    exact decide_eq_true hmem
  · rw [transform_mask_eq hwf, transform_msl_eq]
    apply orfold_lt_pow _ _ _ (by positivity)
    intro o ho
    exact (maxfold_le _ 0).2 o ho
  · rw [transform_msl_eq]
    exact hlt _ hmem

theorem rawMask_testBit (bytes : List Nat) (k : Nat) :
    (rawMask bytes).testBit k =
      decide (k ∈ bytes.map (fun b => letterOffset b % 32)) := by
  unfold rawMask
  rw [← List.foldl_map (fun b => letterOffset b % 32)
    (fun m o => m ||| (1 <<< o))]
  rw [orfold_testBit, Nat.zero_testBit, Bool.false_or]

/-- Equal remapped masks force equal raw masks: the rarity table is a
    bijection on letter positions. -/
theorem transform_mask_inj {ws : List Word} {w1 w2 : Word}
    (h1 : WFword w1) (h2 : WFword w2)
    (h : (w1.transform (transformOf ws)).2.bitword =
         (w2.transform (transformOf ws)).2.bitword) :
    w1.bitword = w2.bitword := by
  have hm : ∀ b : Nat,
      (b ∈ w1.bytes.map (fun x => (transformOf ws).getD (letterOffset x) 0)) ↔
      (b ∈ w2.bytes.map (fun x => (transformOf ws).getD (letterOffset x) 0)) := by
    intro b
    have t1 : (w1.transform (transformOf ws)).2.bitword.testBit b =
        decide (b ∈ w1.bytes.map
          (fun x => (transformOf ws).getD (letterOffset x) 0)) := by
      rw [transform_mask_eq h1, orfold_testBit, Nat.zero_testBit, Bool.false_or]
    have t2 : (w2.transform (transformOf ws)).2.bitword.testBit b =
        decide (b ∈ w2.bytes.map
          (fun x => (transformOf ws).getD (letterOffset x) 0)) := by
      rw [transform_mask_eq h2, orfold_testBit, Nat.zero_testBit, Bool.false_or]
    have he : decide (b ∈ w1.bytes.map
        (fun x => (transformOf ws).getD (letterOffset x) 0)) =
        decide (b ∈ w2.bytes.map
          (fun x => (transformOf ws).getD (letterOffset x) 0)) := by
      rw [← t1, ← t2, h]
    exact decide_eq_decide.mp he
  rw [h1.2.2.2, h2.2.2.2]
  apply Nat.eq_of_testBit_eq
  intro k
  rw [rawMask_testBit, rawMask_testBit]
  have hr1 : w1.bytes.map (fun b => letterOffset b % 32) =
      w1.bytes.map letterOffset := by
    apply List.map_congr_left
    intro x hx
    have hlc := h1.2.1 x hx
    rw [letterOffset_lowercase hlc.1 hlc.2, letterOffset_eq_sub hlc.1 hlc.2]
  have hr2 : w2.bytes.map (fun b => letterOffset b % 32) =
      w2.bytes.map letterOffset := by
    apply List.map_congr_left
    intro x hx
    have hlc := h2.2.1 x hx
    rw [letterOffset_lowercase hlc.1 hlc.2, letterOffset_eq_sub hlc.1 hlc.2]
  rw [hr1, hr2, decide_eq_decide]
  have hoff1 : ∀ x ∈ w1.bytes, letterOffset x < 26 := by
    intro x hx
    have hlc := h1.2.1 x hx
    rw [letterOffset_eq_sub hlc.1 hlc.2]
    omega
  have hoff2 : ∀ x ∈ w2.bytes, letterOffset x < 26 := by
    intro x hx
    have hlc := h2.2.1 x hx
    rw [letterOffset_eq_sub hlc.1 hlc.2]
    omega
  by_cases hk : k < 26
  · have hk1 : k ∈ w1.bytes.map letterOffset ↔
        ((transformOf ws).getD k 0) ∈ w1.bytes.map
          (fun x => (transformOf ws).getD (letterOffset x) 0) := by
      constructor
      · intro hmem
        rw [List.mem_map] at hmem ⊢
        obtain ⟨x, hx, hxk⟩ := hmem
        exact ⟨x, hx, by rw [hxk]⟩
      · intro hmem
        rw [List.mem_map] at hmem ⊢
        obtain ⟨x, hx, hxk⟩ := hmem
        have := transformOf_getD_inj ws (hoff1 x hx) hk hxk
        exact ⟨x, hx, this⟩
    have hk2 : k ∈ w2.bytes.map letterOffset ↔
        ((transformOf ws).getD k 0) ∈ w2.bytes.map
          (fun x => (transformOf ws).getD (letterOffset x) 0) := by
      constructor
      · intro hmem
        rw [List.mem_map] at hmem ⊢
        obtain ⟨x, hx, hxk⟩ := hmem
        exact ⟨x, hx, by rw [hxk]⟩
      · intro hmem
        rw [List.mem_map] at hmem ⊢
        obtain ⟨x, hx, hxk⟩ := hmem
        have := transformOf_getD_inj ws (hoff2 x hx) hk hxk
        exact ⟨x, hx, this⟩
    rw [hk1, hk2]
    exact hm _
  · constructor
    · intro hmem
      exfalso
      rw [List.mem_map] at hmem
      obtain ⟨x, hx, hxk⟩ := hmem
      have := hoff1 x hx
      omega
    · intro hmem
      exfalso
      rw [List.mem_map] at hmem
      obtain ⟨x, hx, hxk⟩ := hmem
      have := hoff2 x hx
      omega

/-- Every input mask keeps a representative after sort and dedup. -/
theorem dedup_from_covers : ∀ (rest : List Word) (a x : Word),
    x ∈ a :: rest → ∃ y ∈ dedup_from a rest, y.bitword = x.bitword := by
  intro rest
  induction rest with
  | nil =>
    intro a x hx
    rw [List.mem_singleton] at hx
    exact ⟨a, by simp [dedup_from], by rw [hx]⟩
  | cons b rest ih =>
    intro a x hx
    have hstep : dedup_from a (b :: rest) =
        if a.bitword = b.bitword then dedup_from a rest
        else a :: dedup_from b rest := rfl
    by_cases hab : a.bitword = b.bitword
    · rw [hstep, if_pos hab]
      rcases List.mem_cons.mp hx with rfl | hx'
      · obtain ⟨y, hy, hyb⟩ := ih x x (by simp)
        exact ⟨y, hy, hyb⟩
      · rcases List.mem_cons.mp hx' with rfl | hx''
        · obtain ⟨y, hy, hyb⟩ := ih a a (by simp)
          exact ⟨y, hy, by rw [hyb, hab]⟩
        · exact ih a x (by simp [hx''])
    · rw [hstep, if_neg hab]
      rcases List.mem_cons.mp hx with rfl | hx'
      · exact ⟨x, by simp, rfl⟩
      · obtain ⟨y, hy, hyb⟩ := ih b x hx'
        exact ⟨y, by simp [hy], hyb⟩

theorem dedupedOf_covers (ws : List Word) :
    ∀ x ∈ ws, ∃ y ∈ dedupedOf ws, y.bitword = x.bitword := by
  intro x hx
  have hx' : x ∈ sortByMask ws := by
    unfold sortByMask
    exact (List.mergeSort_perm ws _).mem_iff.mpr hx
  cases hs : sortByMask ws with
  | nil =>
    rw [hs] at hx'
    cases hx'
  | cons a rest =>
    have hdd : dedupedOf ws = dedup_from a rest := by
      unfold dedupedOf dedup_by_key
      rw [hs]
    rw [hdd]
    rw [hs] at hx'
    exact dedup_from_covers rest a x hx'

/-- Definitional unfolding of `words_` with the let bindings inlined. -/
theorem words_def (input : List Word) :
    words_ input =
      (dedupedOf input).foldl (fun (bk : Nat → List Word) (w : Word) =>
        if (w.transform (transformOf (dedupedOf input))).1 < 26 then
          Function.update bk ((w.transform (transformOf (dedupedOf input))).1)
            (bk ((w.transform (transformOf (dedupedOf input))).1) ++
              [(w.transform (transformOf (dedupedOf input))).2])
        else bk)
      (fun _ => []) :=
  rfl

/-- The bucket fold appends each word to the bucket of its msl. -/
theorem foldl_buckets (t : List Nat) :
    ∀ (l : List Word) (bk : Nat → List Word) (b : Nat),
      (∀ w ∈ l, (w.transform t).1 < 26) →
      (l.foldl (fun (bk : Nat → List Word) (w : Word) =>
        if (w.transform t).1 < 26 then
          Function.update bk ((w.transform t).1)
            (bk ((w.transform t).1) ++ [(w.transform t).2])
        else bk) bk) b =
      bk b ++ l.filterMap (fun w =>
        if (w.transform t).1 = b then some (w.transform t).2 else none) := by
  intro l
  induction l with
  | nil =>
    intro bk b _
    simp
  | cons w rest ih =>
    intro bk b hl
    rw [List.foldl_cons]
    rw [if_pos (hl w (by simp))]
    rw [ih _ b (fun x hx => hl x (by simp [hx]))]
    by_cases hwb : (w.transform t).1 = b
    · have hfm : List.filterMap (fun w =>
          if (w.transform t).1 = b then some (w.transform t).2 else none)
          (w :: rest) = (w.transform t).2 :: List.filterMap (fun w =>
          if (w.transform t).1 = b then some (w.transform t).2 else none)
          rest := by
        simp [List.filterMap_cons, hwb]
      rw [hfm]
      rw [hwb, Function.update_same]
      rw [List.append_assoc, List.singleton_append]
    · have hfm : List.filterMap (fun w =>
          if (w.transform t).1 = b then some (w.transform t).2 else none)
          (w :: rest) = List.filterMap (fun w =>
          if (w.transform t).1 = b then some (w.transform t).2 else none)
          rest := by
        simp [List.filterMap_cons, hwb]
      rw [hfm]
      rw [Function.update_noteq (fun hc => hwb hc.symm)]

/-- Every bucket of the index is the msl-filtered transform of the
    deduplicated word list. -/
theorem words_bucket (input : List Word) (h : ∀ w ∈ input, WFword w) (b : Nat) :
    words_ input b =
      (dedupedOf input).filterMap (fun w =>
        if (w.transform (transformOf (dedupedOf input))).1 = b then
          some (w.transform (transformOf (dedupedOf input))).2 else none) := by
  have hlt : ∀ w ∈ dedupedOf input,
      (w.transform (transformOf (dedupedOf input))).1 < 26 := by
    intro w hw
    exact (transform_wf (h w (mem_dedupedOf hw))).2.2.2
  rw [words_def]
  rw [foldl_buckets (transformOf (dedupedOf input)) (dedupedOf input)
    (fun _ => []) b hlt]
  exact List.nil_append _

theorem mem_words_iff (input : List Word) (h : ∀ w ∈ input, WFword w)
    (b : Nat) {w : Word} :
    w ∈ words_ input b ↔ ∃ x ∈ dedupedOf input,
      (x.transform (transformOf (dedupedOf input))).1 = b ∧
      (x.transform (transformOf (dedupedOf input))).2 = w := by
  rw [words_bucket input h b, List.mem_filterMap]
  constructor
  · rintro ⟨x, hx, hfx⟩
    by_cases hc : (x.transform (transformOf (dedupedOf input))).1 = b
    · rw [if_pos hc] at hfx
      exact ⟨x, hx, hc, Option.some_inj.mp hfx⟩
    · rw [if_neg hc] at hfx
      cases hfx
  · rintro ⟨x, hx, hc, hw⟩
    exact ⟨x, hx, by rw [if_pos hc, hw]⟩

/-- Shape of every stored word: 5 set bits, top bit at the bucket index,
    nothing above it. -/
theorem words_mem_wf (input : List Word) (h : ∀ w ∈ input, WFword w)
    {b : Nat} {w : Word} (hw : w ∈ words_ input b) :
    pc w.bitword = 5 ∧ w.bitword.testBit b = true ∧ w.bitword < 2 ^ (b + 1) ∧
    b < 26 ∧ hb w.bitword = b := by
  rw [mem_words_iff input h b] at hw
  obtain ⟨x, hx, hb1, rfl⟩ := hw
  have hwfx := h x (mem_dedupedOf hx)
  obtain ⟨hpc, htb, hlt, hmsl⟩ := @transform_wf (dedupedOf input) x hwfx
  rw [hb1] at htb hlt hmsl
  exact ⟨hpc, htb, hlt, hmsl, hb_eq_of_lt_pow htb hmsl hlt⟩

/-- Each stored word lives in exactly one bucket. -/
theorem words_bucket_unique (input : List Word) (h : ∀ w ∈ input, WFword w)
    {b1 b2 : Nat} {w : Word} (hw1 : w ∈ words_ input b1)
    (hw2 : w ∈ words_ input b2) : b1 = b2 := by
  have e1 := (words_mem_wf input h hw1).2.2.2.2
  have e2 := (words_mem_wf input h hw2).2.2.2.2
  rw [← e1, ← e2]

/-- Every deduplicated word is placed in the bucket of its msl. -/
theorem words_placed (input : List Word) (h : ∀ w ∈ input, WFword w)
    {x : Word} (hx : x ∈ dedupedOf input) :
    (x.transform (transformOf (dedupedOf input))).2 ∈
      words_ input ((x.transform (transformOf (dedupedOf input))).1) := by
  rw [mem_words_iff input h _]
  exact ⟨x, hx, rfl, rfl⟩

/-- Distinct masks within every bucket. -/
theorem words_bucket_pairwise (input : List Word) (h : ∀ w ∈ input, WFword w)
    (b : Nat) :
    (words_ input b).Pairwise (fun a c => a.bitword ≠ c.bitword) := by
  rw [words_bucket input h b, List.pairwise_filterMap]
  apply List.Pairwise.imp_of_mem ?_ (dedupedOf_pairwise_ne input)
  intro a c ha hc hR
  intro x hx y hy
  by_cases hca : (a.transform (transformOf (dedupedOf input))).1 = b
  · rw [if_pos hca, Option.mem_def, Option.some_inj] at hx
    by_cases hcc : (c.transform (transformOf (dedupedOf input))).1 = b
    · rw [if_pos hcc, Option.mem_def, Option.some_inj] at hy
      subst hx
      subst hy
      intro hmask
      exact hR (transform_mask_inj (h a (mem_dedupedOf ha))
        (h c (mem_dedupedOf hc)) hmask)
    · rw [if_neg hcc] at hy
      cases hy
  · rw [if_neg hca] at hx
    cases hx

/-- Within a list of pairwise distinct masks, the mask determines the word. -/
theorem eq_of_pairwise_ne_mask {l : List Word}
    (hp : l.Pairwise (fun a b => a.bitword ≠ b.bitword)) {x y : Word}
    (hx : x ∈ l) (hy : y ∈ l) (hxy : x.bitword = y.bitword) : x = y := by
  obtain ⟨i, hi, hix⟩ := List.mem_iff_getElem.mp hx
  obtain ⟨j, hj, hjy⟩ := List.mem_iff_getElem.mp hy
  rw [List.pairwise_iff_getElem] at hp
  rcases Nat.lt_trichotomy i j with hij | hij | hij
  · exfalso
    have hne := hp i j hi hj hij
    rw [hix, hjy] at hne
    exact hne hxy
  · subst hij
    rw [← hix, ← hjy]
  · exfalso
    have hne := hp j i hj hi hij
    rw [hjy, hix] at hne
    exact hne hxy.symm

/- ------------------------------------------------------------------ -/
/- The ten specification claims.                                      -/
/- ------------------------------------------------------------------ -/

/-- C1: every solution emitted by the cover search consists of five words
    with pairwise disjoint 26-bit masks whose union covers exactly 25 of the
    26 rank positions, i.e. exactly one position is absent from the union. -/
theorem claim_C1_delivered_covers {words : Nat → List Word}
    (hwf : WFindex words) {T : List Word} (hT : T ∈ solve words) :
    T.length = 5 ∧
    T.Pairwise (fun a b => a.bitword &&& b.bitword = 0) ∧
    pc (unionMasks T) = 25 ∧
    (List.range 26).countP (fun b => !(unionMasks T).testBit b) = 1 := by
  have hv := mem_solve_valid hwf hT
  exact ⟨hv.1, hv.2.2.1.imp (fun h => h.1), hv.2.2.2, valid_missing_one hv⟩

theorem claim_C1_witness :
    WFindex exWords ∧ [ew1, ew2, ew3, ew4, ew5] ∈ solve exWords ∧
    ([ew1, ew2, ew3, ew4, ew5].length = 5 ∧
     [ew1, ew2, ew3, ew4, ew5].Pairwise
       (fun a b => a.bitword &&& b.bitword = 0) ∧
     pc (unionMasks [ew1, ew2, ew3, ew4, ew5]) = 25 ∧
     (List.range 26).countP
       (fun b => !(unionMasks [ew1, ew2, ew3, ew4, ew5]).testBit b) = 1) :=
  ⟨by decide, by decide,
    @claim_C1_delivered_covers exWords (by decide) [ew1, ew2, ew3, ew4, ew5]
      (by decide)⟩

/-- C2 (corrected): the search delivers a 5-tuple to the output sink exactly
    once when it is a cover of 25 rank positions by pairwise disjoint indexed
    words listed in strictly decreasing top-letter order, and never
    otherwise.  Contrary to the literal claim, orderings that violate the
    descending-msl discipline are never delivered (see the
    counterexample). -/
theorem claim_C2_delivery_count {words : Nat → List Word}
    (hwf : WFindex words) (T : List Word) :
    List.count T (solve words) = if ValidTuple words T then 1 else 0 :=
  solve_count hwf T

theorem claim_C2_witness :
    WFindex exWords ∧
    List.count [ew1, ew2, ew3, ew4, ew5] (solve exWords) =
      if ValidTuple exWords [ew1, ew2, ew3, ew4, ew5] then 1 else 0 :=
  ⟨by decide,
    @claim_C2_delivery_count exWords (by decide) [ew1, ew2, ew3, ew4, ew5]⟩

/-- C2 counterexample to the literal claim: a 5-tuple of indexed words with
    pairwise disjoint masks jointly covering 25 rank positions that the
    search never delivers, because the tuple is not ordered by strictly
    decreasing top letter. -/
theorem claim_C2_counterexample :
    (∀ w ∈ [ew2, ew1, ew3, ew4, ew5], w ∈ exWords (hb w.bitword)) ∧
    [ew2, ew1, ew3, ew4, ew5].Pairwise
      (fun a b => a.bitword &&& b.bitword = 0) ∧
    pc (unionMasks [ew2, ew1, ew3, ew4, ew5]) = 25 ∧
    List.count [ew2, ew1, ew3, ew4, ew5] (solve exWords) = 0 := by
  decide

/-- C3 (corrected): with all-lowercase bytes a Word is constructed iff the
    line has exactly 5 pairwise distinct letters.  The literal claim fails in
    both directions: no carriage-return trimming happens anywhere, and a
    non-lowercase byte need not cause rejection in release mode (see the
    counterexample). -/
theorem claim_C3_parse_acceptance {line : List Nat}
    (hlc : ∀ b ∈ line, 97 ≤ b ∧ b ≤ 122) :
    (Word.new line).isSome = true ↔ line.length = 5 ∧ line.Nodup :=
  word_new_isSome_iff hlc

theorem claim_C3_witness :
    (∀ b ∈ [97, 98, 99, 100, 101], 97 ≤ b ∧ b ≤ 122) ∧
    ((Word.new [97, 98, 99, 100, 101]).isSome = true ↔
      ([97, 98, 99, 100, 101] : List Nat).length = 5 ∧
      ([97, 98, 99, 100, 101] : List Nat).Nodup) :=
  ⟨by decide, @claim_C3_parse_acceptance [97, 98, 99, 100, 101] (by decide)⟩

/-- C3 counterexample to the literal claim: the line "ghost\r" (bytes
    103 104 111 115 116 13) would be accepted after carriage-return trimming
    — its first five bytes are 5 distinct lowercase letters — but `Word::new`
    rejects it; the line "gh0st" contains the non-lowercase byte 48 yet is
    accepted, the wrapped release-mode offset of byte 48 landing on bit
    position 15. -/
theorem claim_C3_counterexample :
    Word.new [103, 104, 111, 115, 116, 13] = none ∧
    (([103, 104, 111, 115, 116] : List Nat).length = 5 ∧
      ([103, 104, 111, 115, 116] : List Nat).Nodup ∧
      (∀ b ∈ [103, 104, 111, 115, 116], 97 ≤ b ∧ b ≤ 122)) ∧
    ((Word.new [103, 104, 48, 115, 116]).isSome = true ∧ ¬ (97 ≤ 48)) := by
  decide

/-- C4: on every state of `solve14` reachable from `solve` the filter has
    fewer than 26 set bits among positions 0..25, so `next_free_letter`
    returns a value and the unwrap never panics. -/
theorem claim_C4_unwrap_safe (words : Nat → List Word) (hwf : WFindex words)
    (s : SState) (hr : ReachableState words s) :
    pc s.filter < 26 ∧ (next_free_letter s.filter).isSome = true := by
  have hinv := reachable_inv hwf hr
  have hlt : pc s.filter < 26 := by
    rcases hinv with ⟨_, h2, h3⟩
    cases hs : s.skipped <;> rw [hs] at h3 <;> simp at h3 <;> omega
  exact ⟨hlt, reachable_next_free_isSome hwf hr⟩

theorem claim_C4_witness :
    WFindex exWords ∧
    ReachableState exWords ⟨false, ew1.bitword, 1⟩ ∧
    (pc (SState.mk false ew1.bitword 1).filter < 26 ∧
      (next_free_letter (SState.mk false ew1.bitword 1).filter).isSome =
        true) := by
  have hreach : ReachableState exWords ⟨false, ew1.bitword, 1⟩ :=
    ⟨⟨false, ew1.bitword, 1⟩, Or.inl ⟨ew1, by decide, rfl⟩,
      Relation.ReflTransGen.refl⟩
  exact ⟨by decide, hreach,
    claim_C4_unwrap_safe exWords (by decide) _ hreach⟩

/-- C5: after sorting and deduplication at most one word per raw mask
    survives while every parsed mask keeps exactly one representative, and
    no two distinct entries stored in the index share a remapped mask — so
    the search cannot report two spellings of one mask. -/
theorem claim_C5_dedup_unique_masks (input : List Word)
    (h : ∀ w ∈ input, WFword w) :
    ((dedupedOf input).Pairwise (fun a b => a.bitword ≠ b.bitword)) ∧
    (∀ x ∈ input, ∃ y ∈ dedupedOf input, y.bitword = x.bitword) ∧
    (∀ b1 b2 w1 w2, w1 ∈ words_ input b1 → w2 ∈ words_ input b2 →
      w1.bitword = w2.bitword → b1 = b2 ∧ w1 = w2) := by
  refine ⟨dedupedOf_pairwise_ne input, dedupedOf_covers input, ?_⟩
  intro b1 b2 w1 w2 hw1 hw2 hmask
  have e1 := (words_mem_wf input h hw1).2.2.2.2
  have e2 := (words_mem_wf input h hw2).2.2.2.2
  have hbb : b1 = b2 := by rw [← e1, ← e2, hmask]
  subst hbb
  exact ⟨rfl,
    eq_of_pairwise_ne_mask (words_bucket_pairwise input h b1) hw1 hw2 hmask⟩

theorem claim_C5_witness :
    (∀ w ∈ [rwa, rwa2, rwb], WFword w) ∧
    ((dedupedOf [rwa, rwa2, rwb]).Pairwise
      (fun a b => a.bitword ≠ b.bitword)) :=
  ⟨by decide, (claim_C5_dedup_unique_masks [rwa, rwa2, rwb] (by decide)).1⟩

/- The rarity ranking under the contract of `sorted_unstable_by_key`: the
   following lemmas take an arbitrary admissible result `byFreq` of the first
   sort (any sorted permutation of the frequency enumeration) and an
   arbitrary admissible result `byLetter` of the second sort, instead of the
   particular stable resolution that the executable `transformOf` fixes. -/

theorem sortedKey_fst_perm {ws : List Word} {byFreq : List (Nat × Nat)}
    (hbp : byFreq.Perm ((freqs ws).enum)) :
    (byFreq.map Prod.fst).Perm (List.range 26) := by
  have h1 := hbp.map Prod.fst
  rw [List.enum_map_fst, freqs_length] at h1
  exact h1

theorem sortedKey_fst_nodup {ws : List Word} {byFreq : List (Nat × Nat)}
    (hbp : byFreq.Perm ((freqs ws).enum)) :
    (byFreq.map Prod.fst).Nodup :=
  (sortedKey_fst_perm hbp).symm.nodup (List.nodup_range 26)

theorem sortedKey_length {ws : List Word} {byFreq : List (Nat × Nat)}
    (hbp : byFreq.Perm ((freqs ws).enum)) : byFreq.length = 26 := by
  have h := (sortedKey_fst_perm hbp).length_eq
  rw [List.length_map, List.length_range] at h
  exact h

theorem sortedKey_le {byFreq : List (Nat × Nat)}
    (hbs : byFreq.Pairwise (fun a b => a.2 ≤ b.2)) {p q : Nat} (hpq : p < q)
    (hq : q < byFreq.length) :
    (byFreq.get ⟨p, by omega⟩).2 ≤ (byFreq.get ⟨q, hq⟩).2 := by
  rw [List.pairwise_iff_getElem] at hbs
  have h := hbs p q (by omega) hq hpq
  simpa using h

/-- Position and content of letter `i` inside any admissible result of the
    frequency sort. -/
theorem sortedKey_q_spec {ws : List Word} {byFreq : List (Nat × Nat)}
    (hbp : byFreq.Perm ((freqs ws).enum)) {i : Nat} (hi : i < 26) :
    ((byFreq.map Prod.fst).indexOf i < 26) ∧
    byFreq.getD ((byFreq.map Prod.fst).indexOf i) (0, 0) =
      (i, (freqs ws).getD i 0) := by
  have hMperm := sortedKey_fst_perm hbp
  have hMlen : (byFreq.map Prod.fst).length = 26 := by
    rw [hMperm.length_eq, List.length_range]
  have hSlen : byFreq.length = 26 := by
    rw [← hMlen, List.length_map]
  have hmemM : i ∈ byFreq.map Prod.fst :=
    hMperm.mem_iff.mpr (List.mem_range.mpr hi)
  have hq : (byFreq.map Prod.fst).indexOf i < 26 := by
    rw [← hMlen]
    exact List.indexOf_lt_length.mpr hmemM
  refine ⟨hq, ?_⟩
  have hqS : (byFreq.map Prod.fst).indexOf i < byFreq.length := by omega
  rw [List.getD_eq_getElem _ _ hqS]
  have hfst : ((byFreq.get ⟨(byFreq.map Prod.fst).indexOf i, hqS⟩).1) = i := by
    have hgm := List.indexOf_get (a := i) (l := byFreq.map Prod.fst)
      (by rw [hMlen]; exact hq)
    simp only [List.get_eq_getElem, List.getElem_map] at hgm
    simp only [List.get_eq_getElem]
    exact hgm
  have hmemS : (byFreq.get ⟨(byFreq.map Prod.fst).indexOf i, hqS⟩) ∈
      (freqs ws).enum := by
    apply hbp.mem_iff.mp
    exact List.get_mem _ _ _
  have hpair : (((byFreq.get ⟨(byFreq.map Prod.fst).indexOf i, hqS⟩).1),
      ((byFreq.get ⟨(byFreq.map Prod.fst).indexOf i, hqS⟩).2)) ∈
      (freqs ws).enum := by
    rw [Prod.mk.eta]
    exact hmemS
  obtain ⟨hlt2, hsnd⟩ := List.mem_enum hpair
  simp only [List.get_eq_getElem] at hfst hsnd
  apply Prod.ext
  · simpa using hfst
  · simp only
    rw [hsnd, List.getD_eq_getElem _ _ (by rw [freqs_length]; exact hi)]
    congr 1

/-- A strictly less frequent letter sits strictly earlier in any admissible
    result of the frequency sort. -/
theorem sortedKey_q_mono {ws : List Word} {byFreq : List (Nat × Nat)}
    (hbp : byFreq.Perm ((freqs ws).enum))
    (hbs : byFreq.Pairwise (fun a b => a.2 ≤ b.2)) {i j : Nat}
    (hi : i < 26) (hj : j < 26)
    (hlt : (freqs ws).getD i 0 < (freqs ws).getD j 0) :
    (byFreq.map Prod.fst).indexOf i < (byFreq.map Prod.fst).indexOf j := by
  obtain ⟨hqi, hgi⟩ := sortedKey_q_spec hbp hi
  obtain ⟨hqj, hgj⟩ := sortedKey_q_spec hbp hj
  have hlen := sortedKey_length hbp
  rcases Nat.lt_trichotomy ((byFreq.map Prod.fst).indexOf i)
    ((byFreq.map Prod.fst).indexOf j) with h | h | h
  · exact h
  · exfalso
    rw [h] at hgi
    rw [hgi] at hgj
    have h2 := congrArg Prod.snd hgj
    simp only at h2
    omega
  · exfalso
    have hle := sortedKey_le hbs h (by omega)
    rw [List.getD_eq_getElem _ _ (by omega : (_ : Nat) < _)] at hgi hgj
    simp only [List.get_eq_getElem] at hle
    rw [hgi, hgj] at hle
    simp only at hle
    omega

theorem sortedKey_letters_perm {ws : List Word} {byFreq : List (Nat × Nat)}
    (hbp : byFreq.Perm ((freqs ws).enum)) :
    ((byFreq.reverse.map Prod.fst).Perm (List.range 26)) := by
  rw [List.map_reverse]
  refine (List.reverse_perm _).trans ?_
  exact sortedKey_fst_perm hbp

/-- With pairwise distinct keys the sort contract pins the result: any sorted
    permutation of the enumeration of a duplicate-free letter list is the
    canonical index map.  (This is why only the first sort's tie order is
    unspecified: the second sort's keys are the 26 distinct letters.) -/
theorem sorted_perm_enum_eq_map {L : List Nat} (hperm : L.Perm (List.range 26))
    {r : List (Nat × Nat)} (hr : r.Perm L.enum)
    (hs : r.Pairwise (fun a b => a.2 ≤ b.2)) :
    r = (List.range 26).map (fun k => (L.indexOf k, k)) := by
  have hnd : L.Nodup := hperm.symm.nodup (List.nodup_range 26)
  haveI : IsAntisymm (Nat × Nat) (fun a b => a.2 < b.2) :=
    ⟨fun a b h1 h2 => absurd h1 (by omega)⟩
  apply List.eq_of_perm_of_sorted (r := fun a b : Nat × Nat => a.2 < b.2)
  · have h2 := enum_eq_map_indexOf hnd
    have h3 := hperm.map (fun k => (L.indexOf k, k))
    rw [← h2] at h3
    exact hr.trans h3
  · have hpermsnd : (List.map Prod.snd r).Perm L := by
      have h4 := hr.map Prod.snd
      rw [List.enum_map_snd] at h4
      exact h4
    have hsndnd : (List.map Prod.snd r).Nodup := hpermsnd.symm.nodup hnd
    have hne := List.pairwise_map.mp hsndnd
    exact ((hs.and hne).imp (fun h => lt_of_le_of_ne h.1 h.2))
  · exact List.pairwise_map.mpr (by simpa using List.pairwise_lt_range 26)

/-- Any admissible result of the second sort yields the canonical rank
    table of the letter order fixed by the first sort. -/
theorem sortedKey_byLetter_eq {ws : List Word}
    {byFreq byLetter : List (Nat × Nat)}
    (hbp : byFreq.Perm ((freqs ws).enum))
    (h2 : SortedByKey ((byFreq.reverse.map Prod.fst).enum) byLetter) :
    byLetter.map Prod.fst = (List.range 26).map
      (fun k => (byFreq.reverse.map Prod.fst).indexOf k) := by
  have hL := sortedKey_letters_perm hbp
  have he := sorted_perm_enum_eq_map hL h2.1 h2.2
  rw [he, List.map_map]
  rfl

theorem sortedKey_getD {ws : List Word} {byFreq byLetter : List (Nat × Nat)}
    (hbp : byFreq.Perm ((freqs ws).enum))
    (h2 : SortedByKey ((byFreq.reverse.map Prod.fst).enum) byLetter)
    {k : Nat} (hk : k < 26) :
    (byLetter.map Prod.fst).getD k 0 =
      ((byFreq.reverse.map Prod.fst).indexOf k) := by
  rw [sortedKey_byLetter_eq hbp h2]
  rw [List.getD_eq_getElem _ _
    (by rw [List.length_map, List.length_range]; exact hk)]
  rw [List.getElem_map]
  congr 1
  exact List.getElem_range _ _

theorem sortedKey_rank {ws : List Word} {byFreq byLetter : List (Nat × Nat)}
    (hbp : byFreq.Perm ((freqs ws).enum))
    (h2 : SortedByKey ((byFreq.reverse.map Prod.fst).enum) byLetter)
    {k : Nat} (hk : k < 26) :
    (byLetter.map Prod.fst).getD k 0 =
      25 - ((byFreq.map Prod.fst).indexOf k) := by
  rw [sortedKey_getD hbp h2 hk, List.map_reverse]
  have hMnd := sortedKey_fst_nodup hbp
  have hMperm := sortedKey_fst_perm hbp
  have hMlen : (byFreq.map Prod.fst).length = 26 := by
    rw [hMperm.length_eq, List.length_range]
  have hkm : k ∈ byFreq.map Prod.fst :=
    hMperm.mem_iff.mpr (List.mem_range.mpr hk)
  rw [indexOf_reverse hMnd hkm, hMlen]

theorem sortedKey_perm {ws : List Word} {byFreq byLetter : List (Nat × Nat)}
    (hbp : byFreq.Perm ((freqs ws).enum))
    (h2 : SortedByKey ((byFreq.reverse.map Prod.fst).enum) byLetter) :
    (byLetter.map Prod.fst).Perm (List.range 26) := by
  have hMrperm := sortedKey_letters_perm hbp
  have hMrlen : (byFreq.reverse.map Prod.fst).length = 26 := by
    rw [hMrperm.length_eq, List.length_range]
  rw [sortedKey_byLetter_eq hbp h2]
  have hnodup : ((List.range 26).map (fun k =>
      ((byFreq.reverse.map Prod.fst).indexOf k))).Nodup := by
    apply List.Nodup.map_on ?_ (List.nodup_range 26)
    intro x hx y hy hxy
    have hxm : x ∈ byFreq.reverse.map Prod.fst := hMrperm.mem_iff.mpr hx
    have hym : y ∈ byFreq.reverse.map Prod.fst := hMrperm.mem_iff.mpr hy
    have hbx := List.indexOf_lt_length.mpr hxm
    have hby := List.indexOf_lt_length.mpr hym
    have e1 := List.indexOf_get (a := x) hbx
    have e2 := List.indexOf_get (a := y) hby
    rw [← e1, ← e2]
    congr 1
    exact Fin.ext hxy
  have hsubset : ((List.range 26).map (fun k =>
      ((byFreq.reverse.map Prod.fst).indexOf k))) ⊆ List.range 26 := by
    intro a ha
    rw [List.mem_map] at ha
    obtain ⟨k, hk, hka⟩ := ha
    rw [List.mem_range]
    have hkm : k ∈ byFreq.reverse.map Prod.fst := hMrperm.mem_iff.mpr hk
    have hlt := List.indexOf_lt_length.mpr hkm
    rw [hMrlen] at hlt
    omega
  have hsp := List.subperm_of_subset hnodup hsubset
  apply hsp.perm_of_length_le
  rw [List.length_range, List.length_map, List.length_range]

/-- Strictly rarer letters receive strictly larger ranks under every
    admissible tie resolution. -/
theorem sortedKey_mono {ws : List Word} {byFreq byLetter : List (Nat × Nat)}
    (hbp : byFreq.Perm ((freqs ws).enum))
    (hbs : byFreq.Pairwise (fun a b => a.2 ≤ b.2))
    (h2 : SortedByKey ((byFreq.reverse.map Prod.fst).enum) byLetter)
    {i j : Nat} (hi : i < 26) (hj : j < 26)
    (hlt : (freqs ws).getD i 0 < (freqs ws).getD j 0) :
    (byLetter.map Prod.fst).getD j 0 < (byLetter.map Prod.fst).getD i 0 := by
  rw [sortedKey_rank hbp h2 hi, sortedKey_rank hbp h2 hj]
  have h1 := sortedKey_q_mono hbp hbs hi hj hlt
  have hq2 := (sortedKey_q_spec hbp hj).1
  omega

/-- A strictly least frequent letter receives rank 25 under every admissible
    tie resolution. -/
theorem sortedKey_min {ws : List Word} {byFreq byLetter : List (Nat × Nat)}
    (hbp : byFreq.Perm ((freqs ws).enum))
    (hbs : byFreq.Pairwise (fun a b => a.2 ≤ b.2))
    (h2 : SortedByKey ((byFreq.reverse.map Prod.fst).enum) byLetter)
    {i : Nat} (hi : i < 26)
    (hmin : ∀ j, j < 26 → j ≠ i →
      (freqs ws).getD i 0 < (freqs ws).getD j 0) :
    (byLetter.map Prod.fst).getD i 0 = 25 := by
  have hperm := sortedKey_perm hbp h2
  have h25 : (25 : Nat) ∈ byLetter.map Prod.fst :=
    hperm.mem_iff.mpr (by decide)
  obtain ⟨k, hk, hget⟩ := List.mem_iff_getElem.mp h25
  have hlen : (byLetter.map Prod.fst).length = 26 := by
    rw [hperm.length_eq, List.length_range]
  have hk26 : k < 26 := by omega
  have hgd : (byLetter.map Prod.fst).getD k 0 = 25 := by
    rw [List.getD_eq_getElem _ _ hk]
    exact hget
  by_cases hki : k = i
  · rw [← hki]
    exact hgd
  · exfalso
    have hmono := sortedKey_mono hbp hbs h2 hi hk26 (hmin k hk26 hki)
    have hle : (byLetter.map Prod.fst).getD i 0 ≤ 25 := by
      rw [sortedKey_rank hbp h2 hi]
      omega
    omega

/-- A strictly most frequent letter receives rank 0 under every admissible
    tie resolution. -/
theorem sortedKey_max {ws : List Word} {byFreq byLetter : List (Nat × Nat)}
    (hbp : byFreq.Perm ((freqs ws).enum))
    (hbs : byFreq.Pairwise (fun a b => a.2 ≤ b.2))
    (h2 : SortedByKey ((byFreq.reverse.map Prod.fst).enum) byLetter)
    {i : Nat} (hi : i < 26)
    (hmax : ∀ j, j < 26 → j ≠ i →
      (freqs ws).getD j 0 < (freqs ws).getD i 0) :
    (byLetter.map Prod.fst).getD i 0 = 0 := by
  have hperm := sortedKey_perm hbp h2
  have h0 : (0 : Nat) ∈ byLetter.map Prod.fst := hperm.mem_iff.mpr (by decide)
  obtain ⟨k, hk, hget⟩ := List.mem_iff_getElem.mp h0
  have hlen : (byLetter.map Prod.fst).length = 26 := by
    rw [hperm.length_eq, List.length_range]
  have hk26 : k < 26 := by omega
  have hgd : (byLetter.map Prod.fst).getD k 0 = 0 := by
    rw [List.getD_eq_getElem _ _ hk]
    exact hget
  by_cases hki : k = i
  · rw [← hki]
    exact hgd
  · exfalso
    have hmono := sortedKey_mono hbp hbs h2 hk26 hi (hmax k hk26 hki)
    omega

/-- The stable merge sort of the embedding is one admissible resolution of
    the sort contract, and `transformOf` is the rank table it induces. -/
theorem transformOf_is_admissible (ws : List Word) :
    SortedByKey ((freqs ws).enum)
      ((freqs ws).enum.mergeSort (fun a b => decide (a.2 ≤ b.2))) ∧
    transformOf ws =
      (((((freqs ws).enum.mergeSort (fun a b => decide (a.2 ≤ b.2))).reverse.map
        Prod.fst).enum.mergeSort (fun a b => decide (a.2 ≤ b.2))).map
        Prod.fst) := by
  refine ⟨⟨List.mergeSort_perm _ _, ?_⟩, rfl⟩
  have hs := @List.sorted_mergeSort (Nat × Nat)
    (fun a b => decide (a.2 ≤ b.2))
    (fun (a b c : Nat × Nat) hab hbc => by
      simp only [decide_eq_true_eq] at hab hbc ⊢
      omega)
    (fun a b : Nat × Nat => by
      simp only [Bool.or_eq_true, decide_eq_true_eq]
      omega)
    (freqs ws).enum
  exact hs.imp (fun h => by simpa using h)

/-- C6 (corrected): for every resolution of the two unstable sorts that
    their contract allows — any sorted permutation of the respective input —
    the letter-rarity table is a permutation of `0..25` that assigns rank 25
    to a strictly least frequent letter and rank 0 to a strictly most
    frequent letter, strictly rarer letters receiving strictly larger ranks.
    The literal claim's stable letter-order tie-break is not guaranteed by
    the code: `sorted_unstable_by_key` leaves the order of equal-frequency
    letters unspecified, so the tie order and hence the exact ranking are
    not reproducible from the dictionary alone (see the counterexample). -/
theorem claim_C6_rarity_ranking (ws : List Word)
    (byFreq byLetter : List (Nat × Nat))
    (h1 : SortedByKey ((freqs ws).enum) byFreq)
    (h2 : SortedByKey ((byFreq.reverse.map Prod.fst).enum) byLetter) :
    ((byLetter.map Prod.fst).Perm (List.range 26)) ∧
    (∀ i, i < 26 → (∀ j, j < 26 → j ≠ i →
      (freqs ws).getD i 0 < (freqs ws).getD j 0) →
      (byLetter.map Prod.fst).getD i 0 = 25) ∧
    (∀ i, i < 26 → (∀ j, j < 26 → j ≠ i →
      (freqs ws).getD j 0 < (freqs ws).getD i 0) →
      (byLetter.map Prod.fst).getD i 0 = 0) ∧
    (∀ i j, i < 26 → j < 26 →
      (freqs ws).getD i 0 < (freqs ws).getD j 0 →
      (byLetter.map Prod.fst).getD j 0 < (byLetter.map Prod.fst).getD i 0) :=
  ⟨sortedKey_perm h1.1 h2,
   fun i hi hmin => sortedKey_min h1.1 h1.2 h2 hi hmin,
   fun i hi hmax => sortedKey_max h1.1 h1.2 h2 hi hmax,
   fun i j hi hj hlt => sortedKey_mono h1.1 h1.2 h2 hi hj hlt⟩

theorem claim_C6_witness :
    SortedByKey ((freqs []).enum)
      ((List.range 26).map (fun k => (k, (0 : Nat)))) ∧
    SortedByKey (((((List.range 26).map (fun k =>
      (k, (0 : Nat)))).reverse.map Prod.fst)).enum)
      ((List.range 26).map (fun k => (25 - k, k))) ∧
    (((List.range 26).map (fun k => (25 - k, k))).map Prod.fst).Perm
      (List.range 26) := by
  refine ⟨by decide, by decide, ?_⟩
  exact (claim_C6_rarity_ranking []
    ((List.range 26).map (fun k => (k, (0 : Nat))))
    ((List.range 26).map (fun k => (25 - k, k)))
    (by decide) (by decide)).1

/-- C6 counterexample to the literal claim: on the empty dictionary all 26
    letter frequencies tie, and the sort contract admits (at least) two
    resolutions of the frequency sort — the identity enumeration and its
    reverse — whose induced rank tables differ and one of which ranks the
    tied letters in increasing letter order, refuting both the claimed
    stable original-letter-order tie-break and the reproducibility of the
    ranking from the dictionary alone. -/
theorem claim_C6_counterexample :
    (SortedByKey ((freqs []).enum)
      (((List.range 26).map (fun k => (k, (0 : Nat)))).reverse) ∧
     SortedByKey ((((((List.range 26).map (fun k =>
       (k, (0 : Nat)))).reverse).reverse.map Prod.fst)).enum)
       ((List.range 26).map (fun k => (k, k)))) ∧
    (SortedByKey ((freqs []).enum)
      ((List.range 26).map (fun k => (k, (0 : Nat)))) ∧
     SortedByKey (((((List.range 26).map (fun k =>
       (k, (0 : Nat)))).reverse.map Prod.fst)).enum)
       ((List.range 26).map (fun k => (25 - k, k)))) ∧
    ((freqs []).getD 0 0 = (freqs []).getD 1 0) ∧
    ¬ ((((List.range 26).map (fun k => (k, k))).map Prod.fst).getD 1 0 <
       (((List.range 26).map (fun k => (k, k))).map Prod.fst).getD 0 0) ∧
    (((List.range 26).map (fun k => (k, k))).map Prod.fst ≠
      ((List.range 26).map (fun k => (25 - k, k))).map Prod.fst) := by
  decide

/-- C7: every deduplicated word is stored in the bucket given by its
    transform's msl; every stored word's remapped mask has exactly 5 set
    bits, its top set bit is the bucket index — so all set bits sit at
    positions at most msl — and the word belongs to no other bucket. -/
theorem claim_C7_bucket_placement (input : List Word)
    (h : ∀ w ∈ input, WFword w) :
    (∀ x ∈ dedupedOf input,
      (x.transform (transformOf (dedupedOf input))).2 ∈
        words_ input ((x.transform (transformOf (dedupedOf input))).1)) ∧
    (∀ b w, w ∈ words_ input b →
      pc w.bitword = 5 ∧ w.bitword.testBit b = true ∧
      w.bitword < 2 ^ (b + 1) ∧ hb w.bitword = b ∧
      ∀ b2, w ∈ words_ input b2 → b2 = b) := by
  refine ⟨fun x hx => words_placed input h hx, ?_⟩
  intro b w hw
  obtain ⟨h1, h2, h3, _, h5⟩ := words_mem_wf input h hw
  exact ⟨h1, h2, h3, h5, fun b2 hw2 => words_bucket_unique input h hw2 hw⟩

theorem claim_C7_witness :
    (∀ w ∈ [rwa], WFword w) ∧
    (∀ x ∈ dedupedOf [rwa],
      (x.transform (transformOf (dedupedOf [rwa]))).2 ∈
        words_ [rwa] ((x.transform (transformOf (dedupedOf [rwa]))).1)) :=
  ⟨by decide, (claim_C7_bucket_placement [rwa] (by decide)).1⟩

/-- C8: the skip branch fires only from a state with the skipped flag unset
    and produces the state with the flag set; once set the flag stays set
    along every recursive call, so along every chain of recursive calls the
    flag flips from false to true at most once. -/
theorem claim_C8_skip_once (words : Nat → List Word) :
    (∀ s t : SState, SearchStep words s t → s.skipped = true →
      t.skipped = true) ∧
    (∀ s : SState, ∀ l : Nat, s.skipped = false →
      next_free_letter s.filter = some l →
      SearchStep words s ⟨true, s.filter ||| (1 <<< l), s.i⟩) ∧
    (∀ p : List SState, List.Chain' (SearchStep words) p →
      (p.zip p.tail).countP (fun q => !q.1.skipped && q.2.skipped) ≤ 1) :=
  ⟨fun s t hst hs => searchStep_skipped_mono hst hs,
   fun s l hsk hnfl => SearchStep.skip hsk hnfl,
   fun p hchain => chain_skip_at_most_once p hchain⟩

theorem claim_C8_witness :
    ∀ s t : SState, SearchStep exWords s t → s.skipped = true →
      t.skipped = true :=
  (claim_C8_skip_once exWords).1

/-- C9: the two hand-unrolled top-level modes of `solve` emit exactly the
    output of a single generic invocation of the recursive step at depth 0
    with filter 0 and skipped false. -/
theorem claim_C9_entry_equiv {words : Nat → List Word} (hwf : WFindex words) :
    solve words = solve14 10 words false 0 (fun _ => Word.dfl) 0 :=
  solve_eq_generic hwf

theorem claim_C9_witness :
    WFindex exWords ∧
    solve exWords = solve14 10 exWords false 0 (fun _ => Word.dfl) 0 :=
  ⟨by decide, @claim_C9_entry_equiv exWords (by decide)⟩

/-- C10: each recursive call from a reachable state strictly decreases the
    measure `2*(4-i) + (1 if not skipped)` — it either advances the depth,
    bounded by 4, keeping the flag, or flips the flag at unchanged depth —
    hence no infinite chain of recursive calls exists and the search always
    finishes. -/
theorem claim_C10_terminates (words : Nat → List Word) (hwf : WFindex words) :
    (∀ s t : SState, ReachableState words s → SearchStep words s t →
      stepMeasure t < stepMeasure s ∧
        ((s.i < t.i ∧ t.i ≤ 4 ∧ t.skipped = s.skipped) ∨
          (s.skipped = false ∧ t.skipped = true ∧ t.i = s.i))) ∧
    ¬ ∃ seq : Nat → SState, ReachableState words (seq 0) ∧
      ∀ n, SearchStep words (seq n) (seq (n + 1)) :=
  ⟨fun s t hr hst => searchStep_decreases hwf hr hst, no_infinite_search hwf⟩

theorem claim_C10_witness :
    WFindex exWords ∧
    ¬ ∃ seq : Nat → SState, ReachableState exWords (seq 0) ∧
      ∀ n, SearchStep exWords (seq n) (seq (n + 1)) :=
  ⟨by decide, (claim_C10_terminates exWords (by decide)).2⟩
